import Mathlib

/-!
Verification of the snippet resolver of emmetio/html-snippets-resolver
(src/index.js).  The resolver walks a parsed abbreviation tree and, for
every node whose name matches a registry snippet, parses the snippet body,
recursively resolves it, and splices the resulting sub-tree in place of the
node, merging the node's data into the deepest-rightmost node of the
expansion.

The tree nodes come from the external @emmetio/abbreviation library; they
are embedded here as a functional rose tree whose nodes carry a numeric
`id` standing for JavaScript object identity, so that the pointer-directed
mutations of the source (insertBefore, remove) can be expressed as
id-directed list operations.  The external parse function and the snippet
registry are parameters, exactly as in the source.  The unbounded recursion
of `resolve` is embedded with an explicit fuel argument; running out of
fuel is a distinguished error `RErr.outOfFuel`, and a theorem below shows
that a fuel bound depending only on the registry suffices, which is the
termination argument of the cycle guard.
-/

namespace SnippetResolver

/-- An attribute of a node, as used by src/index.js: a name, a value and
the `options.implied` flag read and cleared by `mergeAttributes`. -/
structure Attr where
  name : String
  value : Option String
  implied : Bool
deriving Repr, DecidableEq

/-- `attr.clone()` of the external library returns a copy of the
attribute; on the functional embedding it is the identity. -/
def Attr.clone (a : Attr) : Attr := a

/-- A repeat descriptor (`node.repeat`), copied by `merge` via
`Object.assign({}, from.repeat)`; its fields are opaque to the resolver. -/
structure RepeatData where
  count : Nat
  value : Nat
deriving Repr, DecidableEq

/-- The scalar data of a node.  `id` models JavaScript object identity.
`name` is `null` for unnamed nodes (text nodes, implicit names), hence an
`Option`.  `rep` is the source's `repeat` field (a Lean keyword). -/
structure NodeData where
  id : Nat
  name : Option String
  attributes : List Attr
  classList : List String
  value : Option String
  selfClosing : Bool
  rep : Option RepeatData
deriving Repr, DecidableEq

/-- A node of the abbreviation tree: its data and its ordered children. -/
inductive Node : Type where
  | mk (data : NodeData) (children : List Node)
deriving Repr

def Node.data : Node → NodeData
  | .mk d _ => d

def Node.children : Node → List Node
  | .mk _ cs => cs

def Node.withChildren : Node → List Node → Node
  | .mk d _, cs => .mk d cs

def Node.withData : Node → NodeData → Node
  | .mk _ cs, d => .mk d cs

def Node.id (n : Node) : Nat := n.data.id

def Node.name (n : Node) : Option String := n.data.name

/-- `node.addClass(c)` of the external tree library: adds a class name if
it is not already present. -/
def Node.addClass (n : Node) (c : String) : Node :=
  if c ∈ n.data.classList then n
  else n.withData { n.data with classList := n.data.classList ++ [c] }

/-- `mergeClassNames(from, to)` (src/index.js lines 140–147): adds the
class names of `from` into `to`. -/
def mergeClassNames (fromN toN : Node) : Node :=
  fromN.data.classList.foldl Node.addClass toN

/-- A JavaScript `Map` keyed by attribute name, kept in insertion order:
`set` on an existing key replaces the stored attribute in place (keeping
its position), on a new key appends. -/
def mapSet (m : List Attr) (a : Attr) : List Attr :=
  if m.any (fun b => b.name == a.name) then
    m.map (fun b => if b.name == a.name then a else b)
  else m ++ [a]

/-- `mergeAttributes(from, to)` (src/index.js lines 94–132).  First the
class lists are merged; then a map is filled with clones of `from`'s
attributes in order; then each attribute of `to` either overwrites the
value of the same-named entry (clearing its implied flag — the source
writes `a.value = attr.value; if (a.options.implied) a.options.implied =
false`, whose net effect is an unconditional clear) or is appended, and is
removed from `to`; finally the map's values are set on `to` in insertion
order, so they are exactly `to`'s resulting attribute list. -/
def mergeAttributes (fromN toN : Node) : Node :=
  let t1 := mergeClassNames fromN toN
  let m1 := fromN.data.attributes.foldl (fun m a => mapSet m a.clone) []
  let m2 := t1.data.attributes.foldl (fun m a =>
    if m.any (fun b => b.name == a.name) then
      m.map (fun b =>
        if b.name == a.name then { b with value := a.value, implied := false } else b)
    else m ++ [a]) m1
  t1.withData { t1.data with attributes := m2 }

/-- The four sequential field assignments of `merge` (src/index.js lines
70–82): `to.name = from.name`; `if (from.selfClosing) to.selfClosing =
true`; `if (from.value != null) to.value = from.value`; `if (from.repeat)
to.repeat = Object.assign({}, from.repeat)` (a shallow clone, which on the
functional embedding is the value itself). -/
def mergeScalarData (f t : NodeData) : NodeData :=
  let d0 := { t with name := f.name }
  let d1 := if f.selfClosing then { d0 with selfClosing := true } else d0
  let d2 := if f.value.isSome then { d1 with value := f.value } else d1
  if f.rep.isSome then { d2 with rep := f.rep } else d2

/-- `merge(from, to)` (src/index.js lines 69–85): the scalar assignments
above, then `mergeAttributes(from, to)`. -/
def merge (fromN toN : Node) : Node :=
  mergeAttributes fromN (toN.withData (mergeScalarData fromN.data toN.data))

/-- Placeholder node for the unreachable empty case of `findDeepestLast`. -/
def dummyNode : Node := .mk ⟨0, none, [], [], none, false, none⟩ []

mutual
/-- `findDeepestNode(node)` (src/index.js lines 154–160): follow the last
child of each node, repeatedly, until reaching a childless node; return
that node.  `findDeepestLast` walks to the last element of a children
list; together they are the source's while loop. -/
def findDeepestNode : Node → Node
  | .mk d [] => .mk d []
  | .mk _ (c :: cs) => findDeepestLast (c :: cs)

/-- The last-child step of `findDeepestNode`; the `[]` case is
unreachable from `findDeepestNode`. -/
def findDeepestLast : List Node → Node
  | [] => dummyNode
  | [c] => findDeepestNode c
  | _ :: c2 :: cs => findDeepestLast (c2 :: cs)
end

mutual
/-- Recursion of `removeById` into a node's children. -/
def removeByIdIn (i : Nat) : Node → Node
  | .mk d cs => .mk d (removeById i cs)

/-- `node.remove()` of the external tree library, directed by object
identity: removes the node carrying id `i` (with its whole sub-tree)
wherever it sits in the forest.  Under the id-uniqueness hypotheses used
below this coincides with the pointer-based removal of the source. -/
def removeById (i : Nat) : List Node → List Node
  | [] => []
  | n :: rest =>
    if n.id == i then rest
    else removeByIdIn i n :: removeById i rest
end

mutual
/-- Recursion of `insertBeforeById` into a node's children. -/
def insertBeforeByIdIn (i : Nat) (x : Node) : Node → Node
  | .mk d cs => .mk d (insertBeforeById i x cs)

/-- `parent.insertBefore(x, ref)` of the external tree library, directed
by the id of `ref`: inserts `x` as the sibling immediately before the node
carrying id `i`.  (The detaching of `x` from its previous parent that
insertBefore performs first appears explicitly as the preceding
`removeById` in `applySplice`.) -/
def insertBeforeById (i : Nat) (x : Node) : List Node → List Node
  | [] => []
  | n :: rest =>
    if n.id == i then x :: n :: rest
    else insertBeforeByIdIn i x n :: insertBeforeById i x rest
end

/-- The splice of src/index.js lines 52–57, expressed on the list of
siblings that replaces `[node]` in the parent.  After `merge`, the while
loop `while (tree.firstChild) node.parent.insertBefore(tree.firstChild,
node)` has moved the parsed tree's children `ts` directly before the node,
giving the segment `ts ++ [nMerged]`; then
`childTarget.parent.insertBefore(node, childTarget)` detaches the node
(the inner `removeById nMerged.id`) and inserts it before the child
target; finally `childTarget.remove()` (the outer `removeById ctId`). -/
def applySplice (ts : List Node) (ctId : Nat) (nMerged : Node) : List Node :=
  removeById ctId (insertBeforeById ctId nMerged (removeById nMerged.id (ts ++ [nMerged])))

/-- The value of a registry snippet: a template string to be parsed into a
tree, or a function snippet.  A function snippet is invoked by the source
as `snippet.value(node, registry, resolve)` (the variant with a parse
dependency also receives `parse`) and mutates the node directly; its
effect on the node is embedded as a function on nodes. -/
inductive SnippetValue where
  | template (s : String)
  | fn (f : Node → Node)

/-- Whether a snippet value is a template string. -/
def SnippetValue.isTemplate : SnippetValue → Bool
  | .template _ => true
  | .fn _ => false

/-- A registry snippet.  `id` models the identity of the snippet object,
which is what the cycle-guard `stack` (a JavaScript `Set`) stores: two
names may resolve to the same snippet (aliases) and then share an id. -/
structure Snippet where
  id : Nat
  value : SnippetValue

/-- The snippet registry, an external dependency: `resolve(name)` returns
the snippet registered for a name, or nothing.  A `null` node name finds
no snippet. -/
structure Registry where
  entries : List (String × Snippet)

def Registry.resolve (r : Registry) (name : Option String) : Option Snippet :=
  name.bind fun s => (r.entries.find? (fun e => e.1 == s)).map (·.2)

/-- Errors of a resolution run: an error thrown by the external parse
function (propagated by the source without wrapping), the TypeError hit
when the child target is the parsed root itself (empty parsed tree, so
`childTarget.parent` is null), and the fuel-exhaustion artifact of the
embedding. -/
inductive RErr where
  | parse (msg : String)
  | nullParent
  | outOfFuel
deriving Repr, DecidableEq

/-- The outcome of `resolve` on one node: either the node is kept (no
snippet, cycle guard, or function snippet — in the latter case already
mutated by the function), or the splice data: the recursively resolved
children `ts` of the parsed tree, the child target `ct`, and the node
merged with the child target's data. -/
inductive SpliceRes where
  | keep (n : Node)
  | spliced (ts : List Node) (ct : Node) (n : Node)

/-- The node object the callback worked on (wherever it now sits). -/
def SpliceRes.node : SpliceRes → Node
  | .keep n => n
  | .spliced _ _ n => n

mutual
/-- The `resolve` closure of `resolveNode` (src/index.js lines 27–58).
State: the cycle-guard `stack` (a set of snippet ids) is threaded through
and returned even on error, because the source has no try/finally around
`stack.add` / `stack.delete`: when the recursive walk throws, the delete
is skipped.  The splice on the parent's sibling list is returned as a
`SpliceRes` and applied by the enclosing walk. -/
def resolveCore (reg : Registry) (parseF : String → Except String Node) :
    Nat → Node → List Nat → Except RErr SpliceRes × List Nat
  | fuel, n, stack =>
    match reg.resolve n.name with
    | none => (.ok (.keep n), stack)
    | some sn =>
      if sn.id ∈ stack then (.ok (.keep n), stack)
      else
        match sn.value with
        | .fn f => (.ok (.keep (f n)), stack)
        | .template s =>
          match parseF s with
          | .error m => (.error (.parse m), stack)
          | .ok tree =>
            match fuel with
            | 0 => (.error .outOfFuel, stack)
            | fuel' + 1 =>
              match walkInner reg parseF fuel' tree.children (sn.id :: stack) with
              | (.error e, st') => (.error e, st')
              | (.ok ts', st') =>
                let st'' := st'.erase sn.id
                match ts' with
                | [] => (.error .nullParent, st'')
                | t0 :: trest =>
                  let ct := findDeepestNode (tree.withChildren (t0 :: trest))
                  (.ok (.spliced (t0 :: trest) ct (merge ct n)), st'')

/-- `tree.walk(resolve)` (src/index.js line 45) together with the walk
semantics of the external library: visit each node left to right; run the
callback on it (which computes and performs its splice); descend into that
node's children (the node object may have moved to the deepest-rightmost
position of its expansion, but its children are its own); then continue
with the sibling captured before the callback ran, so nodes inserted by
the splice are not revisited.  The splice is applied after the descent
here, which yields the same list because `applySplice` is directed by ids
that do not occur among the node's children. -/
def walkInner (reg : Registry) (parseF : String → Except String Node) :
    Nat → List Node → List Nat → Except RErr (List Node) × List Nat
  | _, [], stack => (.ok [], stack)
  | 0, _ :: _, stack => (.error .outOfFuel, stack)
  | fuel' + 1, n :: rest, stack =>
    match resolveCore reg parseF fuel' n stack with
    | (.error e, st1) => (.error e, st1)
    | (.ok res, st1) =>
      match walkInner reg parseF fuel' res.node.children st1 with
      | (.error e, st2) => (.error e, st2)
      | (.ok ch', st2) =>
        let nDone := res.node.withChildren ch'
        match walkInner reg parseF fuel' rest st2 with
        | (.error e, st3) => (.error e, st3)
        | (.ok rest', st3) =>
          match res with
          | .keep _ => (.ok (nDone :: rest'), st3)
          | .spliced ts' ct _ => (.ok (applySplice ts' ct.id nDone ++ rest'), st3)
end

/-- `resolveNode(node, registry)` (src/index.js lines 25–61): create a
fresh cycle-guard stack and run `resolve` on the node (the node only; the
top-level `tree.walk` drives the descent). -/
def resolveNode (reg : Registry) (parseF : String → Except String Node)
    (fuel : Nat) (n : Node) : Except RErr SpliceRes × List Nat :=
  resolveCore reg parseF fuel n []

/-- `tree.walk(node => resolveNode(node, registry))` (src/index.js line
21): the driver walk; identical to `walkInner` except that every node gets
a fresh stack, whose final state is discarded. -/
def walkDriver (reg : Registry) (parseF : String → Except String Node) :
    Nat → List Node → Except RErr (List Node)
  | _, [] => .ok []
  | 0, _ :: _ => .error .outOfFuel
  | fuel' + 1, n :: rest =>
    match resolveNode reg parseF fuel' n with
    | (.error e, _) => .error e
    | (.ok res, _) =>
      match walkDriver reg parseF fuel' res.node.children with
      | .error e => .error e
      | .ok ch' =>
        let nDone := res.node.withChildren ch'
        match walkDriver reg parseF fuel' rest with
        | .error e => .error e
        | .ok rest' =>
          match res with
          | .keep _ => .ok (nDone :: rest')
          | .spliced ts' ct _ => .ok (applySplice ts' ct.id nDone ++ rest')

/-- The default export (src/index.js lines 20–23): walk the tree resolving
every node, and return the same tree (the root is not itself resolved;
`walk` visits its descendants). -/
def resolveTree (reg : Registry) (parseF : String → Except String Node)
    (fuel : Nat) (t : Node) : Except RErr Node :=
  match walkDriver reg parseF fuel t.children with
  | .error e => .error e
  | .ok cs => .ok (t.withChildren cs)

/-! ### Auxiliary measures and observations on trees -/

mutual
/-- Node count of a tree (the node and all descendants). -/
def nodeSize : Node → Nat
  | .mk _ cs => 1 + forestSize cs

/-- Node count of a forest. -/
def forestSize : List Node → Nat
  | [] => 0
  | n :: ns => nodeSize n + forestSize ns
end

mutual
/-- The ids of a tree's nodes, in pre-order. -/
def nodeIds : Node → List Nat
  | .mk d cs => d.id :: forestIds cs

/-- The ids of a forest's nodes, in pre-order. -/
def forestIds : List Node → List Nat
  | [] => []
  | n :: ns => nodeIds n ++ forestIds ns
end

mutual
/-- No node of the tree has a name with a registered snippet. -/
def nodeUnmatched (reg : Registry) : Node → Bool
  | .mk d cs => (reg.resolve d.name).isNone && forestUnmatched reg cs

/-- No node of the forest has a name with a registered snippet. -/
def forestUnmatched (reg : Registry) : List Node → Bool
  | [] => true
  | n :: ns => nodeUnmatched reg n && forestUnmatched reg ns
end

mutual
/-- Spec-side description of the net splice effect: the deepest-rightmost
node of the tree (the one `findDeepestNode` returns) replaced by `x`. -/
def replaceDeepestNode (x : Node) : Node → Node
  | .mk _ [] => x
  | .mk d (c :: cs) => .mk d (replaceDeepestList x (c :: cs))

/-- `replaceDeepestNode` on the last element of a forest. -/
def replaceDeepestList (x : Node) : List Node → List Node
  | [] => []
  | [c] => [replaceDeepestNode x c]
  | c :: c2 :: cs => c :: replaceDeepestList x (c2 :: cs)
end

/-- Every snippet of the registry is a template snippet (no function
snippets). -/
def Registry.templatesOnly (reg : Registry) : Bool :=
  reg.entries.all fun e => e.2.value.isTemplate

/-- The distinct snippet ids of the registry. -/
def regIds (reg : Registry) : List Nat :=
  (reg.entries.map fun e => e.2.id).dedup

/-- How many distinct registry snippet ids are not on the cycle-guard
stack: the bound on the depth of open template expansions. -/
def freeCount (reg : Registry) (stack : List Nat) : Nat :=
  ((regIds reg).filter fun i => i ∉ stack).length

/-! ### Basic lemmas about the tree embedding -/

@[simp] theorem Node.data_mk (d : NodeData) (cs : List Node) : (Node.mk d cs).data = d := rfl

@[simp] theorem Node.children_mk (d : NodeData) (cs : List Node) :
    (Node.mk d cs).children = cs := rfl

@[simp] theorem Node.id_mk (d : NodeData) (cs : List Node) : (Node.mk d cs).id = d.id := rfl

@[simp] theorem Node.withChildren_mk (d : NodeData) (cs cs' : List Node) :
    (Node.mk d cs).withChildren cs' = .mk d cs' := rfl

@[simp] theorem Node.withData_mk (d d' : NodeData) (cs : List Node) :
    (Node.mk d cs).withData d' = .mk d' cs := rfl

theorem Node.withChildren_self (n : Node) : n.withChildren n.children = n := by
  cases n; rfl

theorem Node.data_withChildren (n : Node) (cs : List Node) :
    (n.withChildren cs).data = n.data := by
  cases n; rfl

theorem Node.children_withChildren (n : Node) (cs : List Node) :
    (n.withChildren cs).children = cs := by
  cases n; rfl

/-- `addClass` touches only the class list. -/
theorem Node.addClass_data (n : Node) (c : String) :
    ((n.addClass c).data.id = n.data.id ∧ (n.addClass c).data.name = n.data.name ∧
     (n.addClass c).data.attributes = n.data.attributes ∧
     (n.addClass c).data.value = n.data.value ∧
     (n.addClass c).data.selfClosing = n.data.selfClosing ∧
     (n.addClass c).data.rep = n.data.rep) ∧
    (n.addClass c).children = n.children := by
  cases n with
  | mk d cs =>
    simp only [Node.addClass]
    by_cases h : c ∈ d.classList <;> simp [h, Node.data, Node.children, Node.withData]

/-- A fold of `addClass` touches only the class list. -/
theorem foldl_addClass_data (l : List String) (t : Node) :
    ((l.foldl Node.addClass t).data.id = t.data.id ∧
     (l.foldl Node.addClass t).data.name = t.data.name ∧
     (l.foldl Node.addClass t).data.attributes = t.data.attributes ∧
     (l.foldl Node.addClass t).data.value = t.data.value ∧
     (l.foldl Node.addClass t).data.selfClosing = t.data.selfClosing ∧
     (l.foldl Node.addClass t).data.rep = t.data.rep) ∧
    (l.foldl Node.addClass t).children = t.children := by
  induction l generalizing t with
  | nil => exact ⟨⟨rfl, rfl, rfl, rfl, rfl, rfl⟩, rfl⟩
  | cons c l ih =>
    obtain ⟨⟨h1, h2, h3, h4, h5, h6⟩, h7⟩ := Node.addClass_data t c
    obtain ⟨⟨g1, g2, g3, g4, g5, g6⟩, g7⟩ := ih (t.addClass c)
    exact ⟨⟨g1.trans h1, g2.trans h2, g3.trans h3, g4.trans h4, g5.trans h5, g6.trans h6⟩,
      g7.trans h7⟩

/-- `mergeClassNames` touches only the class list of `to`. -/
theorem mergeClassNames_data (fromN toN : Node) :
    ((mergeClassNames fromN toN).data.id = toN.data.id ∧
     (mergeClassNames fromN toN).data.name = toN.data.name ∧
     (mergeClassNames fromN toN).data.attributes = toN.data.attributes ∧
     (mergeClassNames fromN toN).data.value = toN.data.value ∧
     (mergeClassNames fromN toN).data.selfClosing = toN.data.selfClosing ∧
     (mergeClassNames fromN toN).data.rep = toN.data.rep) ∧
    (mergeClassNames fromN toN).children = toN.children :=
  foldl_addClass_data fromN.data.classList toN


@[simp] theorem Node.data_withData (n : Node) (d : NodeData) : (n.withData d).data = d := by
  cases n; rfl

@[simp] theorem Node.children_withData (n : Node) (d : NodeData) :
    (n.withData d).children = n.children := by
  cases n; rfl

/-- `mergeAttributes` touches only the attributes and the class list. -/
theorem mergeAttributes_data (fromN toN : Node) :
    ((mergeAttributes fromN toN).data.id = toN.data.id ∧
     (mergeAttributes fromN toN).data.name = toN.data.name ∧
     (mergeAttributes fromN toN).data.value = toN.data.value ∧
     (mergeAttributes fromN toN).data.selfClosing = toN.data.selfClosing ∧
     (mergeAttributes fromN toN).data.rep = toN.data.rep) ∧
    (mergeAttributes fromN toN).children = toN.children := by
  obtain ⟨⟨h1, h2, h3, h4, h5, h6⟩, h7⟩ := mergeClassNames_data fromN toN
  unfold mergeAttributes
  simp only [Node.data_withData, Node.children_withData]
  exact ⟨⟨h1, h2, h4, h5, h6⟩, h7⟩

/-- The scalar merge applies the documented priority rules and leaves the
other fields of `to` alone. -/
theorem mergeScalarData_fields (f t : NodeData) :
    (mergeScalarData f t).name = f.name ∧
    (mergeScalarData f t).selfClosing = (f.selfClosing || t.selfClosing) ∧
    (mergeScalarData f t).value = (if f.value.isSome then f.value else t.value) ∧
    (mergeScalarData f t).rep = (if f.rep.isSome then f.rep else t.rep) ∧
    (mergeScalarData f t).id = t.id ∧
    (mergeScalarData f t).attributes = t.attributes ∧
    (mergeScalarData f t).classList = t.classList := by
  unfold mergeScalarData
  by_cases hs : f.selfClosing <;> by_cases hv : f.value.isSome <;>
    by_cases hr : f.rep.isSome <;> simp [hs, hv, hr]

/-- `merge` keeps the identity and the children of `to`. -/
theorem merge_id_children (fromN toN : Node) :
    (merge fromN toN).data.id = toN.data.id ∧ (merge fromN toN).children = toN.children := by
  unfold merge
  obtain ⟨⟨h1, _, _, _, _⟩, h7⟩ :=
    mergeAttributes_data fromN (toN.withData (mergeScalarData fromN.data toN.data))
  obtain ⟨_, _, _, _, hid, _, _⟩ := mergeScalarData_fields fromN.data toN.data
  refine ⟨?_, by rw [h7, Node.children_withData]⟩
  rw [h1, Node.data_withData, hid]

/-! ### Claim C8: merge transfers name, self-closing flag, value, repeat -/

/-- **C8.** For every call `merge(from, to)`: `to.name` becomes
`from.name`; `to.selfClosing` is true after the call iff `from.selfClosing`
or `to.selfClosing` was true before (monotonic OR); `to.value` is
overwritten by `from.value` iff `from.value` is non-null, otherwise `to`'s
value is kept; and if `from` carries a repeat descriptor, a (shallow clone
of the) descriptor replaces `to.repeat`, otherwise `to.repeat` is
unchanged. -/
theorem merge_transfers_fields (fromN toN : Node) :
    (merge fromN toN).data.name = fromN.data.name ∧
    (merge fromN toN).data.selfClosing = (fromN.data.selfClosing || toN.data.selfClosing) ∧
    (merge fromN toN).data.value =
      (if fromN.data.value.isSome then fromN.data.value else toN.data.value) ∧
    (merge fromN toN).data.rep =
      (if fromN.data.rep.isSome then fromN.data.rep else toN.data.rep) := by
  unfold merge
  obtain ⟨⟨_, h2, h3, h4, h5⟩, _⟩ :=
    mergeAttributes_data fromN (toN.withData (mergeScalarData fromN.data toN.data))
  obtain ⟨g1, g2, g3, g4, _, _, _⟩ := mergeScalarData_fields fromN.data toN.data
  rw [Node.data_withData] at h2 h3 h4 h5
  exact ⟨h2.trans g1, h4.trans g2, h3.trans g3, h5.trans g4⟩

/-! ### Claim C2: missing snippet or cycle-guard hit is a silent no-op -/

/-- **C2.** For every node whose name has no registered snippet, and for
every node whose matched snippet identity is already on the cycle-guard
stack, the resolve step is a no-op: it returns the node exactly as it was
(sub-tree included), mutates nothing, performs no splice, leaves the stack
untouched and raises no error. -/
theorem resolve_noop_no_snippet_or_cycle (reg : Registry)
    (parseF : String → Except String Node) (fuel : Nat) (n : Node) (stack : List Nat)
    (h : reg.resolve n.name = none ∨
      ∃ sn, reg.resolve n.name = some sn ∧ sn.id ∈ stack) :
    resolveCore reg parseF fuel n stack = (.ok (.keep n), stack) := by
  rcases h with h | ⟨sn, h, hm⟩
  · simp only [resolveCore]
    rw [h]
  · simp only [resolveCore]
    rw [h]
    simp [hm]

/-! ### Claim C7: function snippets take over resolution -/

/-- **C7.** When the matched snippet's value is a function, the resolver
hands the node to it synchronously and performs no further mutation of
that node itself: the result is exactly the node as mutated by the
function, no template parsing happens (the outcome does not depend on the
parse function, nor on the fuel, since no recursion takes place), no
splice is produced, and the stack is untouched. -/
theorem function_snippet_handoff (reg : Registry)
    (parseF parseF' : String → Except String Node) (fuel fuel' : Nat)
    (n : Node) (stack : List Nat) (sn : Snippet) (f : Node → Node)
    (h1 : reg.resolve n.name = some sn) (h2 : sn.id ∉ stack)
    (h3 : sn.value = .fn f) :
    resolveCore reg parseF fuel n stack = (.ok (.keep (f n)), stack) ∧
    resolveCore reg parseF fuel n stack = resolveCore reg parseF' fuel' n stack := by
  have key : ∀ (pf : String → Except String Node) (fl : Nat),
      resolveCore reg pf fl n stack = (.ok (.keep (f n)), stack) := by
    intro pf fl
    simp only [resolveCore]
    rw [h1]
    simp [h2, h3]
  exact ⟨key parseF fuel, (key parseF fuel).trans (key parseF' fuel').symm⟩

/-! ### Concrete fixture used by the witnesses, modelled on the registry
of the repository's own tests (src/unnamed/part_000, part_001). -/

/-- Effect of the test registry's `fn` function snippet on the node. -/
def wFnEffect : Node → Node :=
  fun n => n.withData { n.data with value := some "fn value" }

/-- Witness registry: an alias snippet, a self-referential shape snippet,
a snippet with an unparseable body, a function snippet, and a snippet
whose body carries a default attribute. -/
def wReg : Registry :=
  ⟨[("bq", ⟨0, .template "blockquote"⟩),
    ("img", ⟨1, .template "imgbody"⟩),
    ("err", ⟨2, .template "badbody"⟩),
    ("fn", ⟨3, .fn wFnEffect⟩),
    ("a", ⟨4, .template "abody"⟩),
    ("outer", ⟨5, .template "outerbody"⟩)]⟩

/-- The node parsed from the template `blockquote`. -/
def wBqBody : Node := .mk ⟨101, some "blockquote", [], [], none, false, none⟩ []

/-- The node parsed from the template `img[src alt]/`. -/
def wImgBody : Node :=
  .mk ⟨111, some "img", [⟨"src", some "", false⟩, ⟨"alt", some "", false⟩], [], none, true, none⟩ []

/-- The node parsed from the template `a[href]`. -/
def wABody : Node :=
  .mk ⟨121, some "a", [⟨"href", some "", false⟩], [], none, false, none⟩ []

/-- The body of the `outer` snippet: a single node named `err`, whose own
snippet body does not parse. -/
def wOuterBody : Node := .mk ⟨131, some "err", [], [], none, false, none⟩ []

/-- Witness parse function: each registered template parses to a fresh
detached tree (a root whose children are the template's top-level nodes);
the body of the `err` snippet throws. -/
def wParse : String → Except String Node := fun s =>
  if s = "blockquote" then .ok (.mk ⟨100, none, [], [], none, false, none⟩ [wBqBody])
  else if s = "imgbody" then .ok (.mk ⟨110, none, [], [], none, false, none⟩ [wImgBody])
  else if s = "abody" then .ok (.mk ⟨120, none, [], [], none, false, none⟩ [wABody])
  else if s = "outerbody" then .ok (.mk ⟨130, none, [], [], none, false, none⟩ [wOuterBody])
  else .error "boom"

/-- A node named `zz`, matching no snippet. -/
def wPlain : Node := .mk ⟨7, some "zz", [], [], none, false, none⟩ []

/-- A node named `fn`, matching the function snippet. -/
def wFnNode : Node := .mk ⟨8, some "fn", [], [], none, false, none⟩ []

/-- Witness for C2: the no-op theorem applied to a concrete node with no
matching snippet, and to one whose snippet is on the stack. -/
theorem claim2_witness :
    resolveCore wReg wParse 5 wPlain [] = (.ok (.keep wPlain), []) ∧
    resolveCore wReg wParse 5 wFnNode [3] = (.ok (.keep wFnNode), [3]) :=
  ⟨resolve_noop_no_snippet_or_cycle wReg wParse 5 wPlain [] (Or.inl rfl),
   resolve_noop_no_snippet_or_cycle wReg wParse 5 wFnNode [3]
     (Or.inr ⟨⟨3, .fn wFnEffect⟩, rfl, by decide⟩)⟩

/-- Witness for C7: the function-snippet theorem applied to a concrete
node; the function's value assignment is the final observed value, and the
outcome is independent of the parse function and the fuel. -/
theorem claim7_witness :
    resolveCore wReg wParse 5 wFnNode [] = (.ok (.keep (wFnEffect wFnNode)), []) ∧
    resolveCore wReg wParse 5 wFnNode [] =
      resolveCore wReg (fun _ => .error "no parse call") 0 wFnNode [] :=
  function_snippet_handoff wReg wParse (fun _ => .error "no parse call") 5 0 wFnNode []
    ⟨3, .fn wFnEffect⟩ wFnEffect rfl (by decide) rfl

/-! ### Stack discipline of the cycle guard -/

/-- Stack discipline: a successful resolve step returns exactly the stack
it was given (every push is popped); a failing one returns a stack that
still carries everything it was given, as a suffix — the pushes made on the
failing path are not popped, because the source has no try/finally around
`stack.add` / `stack.delete`. -/
theorem stack_discipline (reg : Registry) (parseF : String → Except String Node) :
    ∀ fuel : Nat,
      ((∀ n stack x st', resolveCore reg parseF fuel n stack = (.ok x, st') → st' = stack) ∧
       (∀ n stack e st', resolveCore reg parseF fuel n stack = (.error e, st') →
         stack <:+ st')) ∧
      ((∀ ns stack x st', walkInner reg parseF fuel ns stack = (.ok x, st') → st' = stack) ∧
       (∀ ns stack e st', walkInner reg parseF fuel ns stack = (.error e, st') →
         stack <:+ st')) := by
  intro fuel
  induction fuel with
  | zero =>
    refine ⟨⟨?_, ?_⟩, ?_, ?_⟩
    · intro n stack x st' h
      simp only [resolveCore] at h
      split at h
      · exact (Prod.mk.injEq _ _ _ _ ▸ h).2.symm ▸ rfl
      · split at h
        · exact (Prod.mk.injEq _ _ _ _ ▸ h).2.symm ▸ rfl
        · split at h
          · exact (Prod.mk.injEq _ _ _ _ ▸ h).2.symm ▸ rfl
          · split at h
            · exact absurd (Prod.mk.injEq _ _ _ _ ▸ h).1 (by simp)
            · exact absurd (Prod.mk.injEq _ _ _ _ ▸ h).1 (by simp)
    · intro n stack e st' h
      simp only [resolveCore] at h
      split at h
      · exact absurd (Prod.mk.injEq _ _ _ _ ▸ h).1 (by simp)
      · split at h
        · exact absurd (Prod.mk.injEq _ _ _ _ ▸ h).1 (by simp)
        · split at h
          · exact absurd (Prod.mk.injEq _ _ _ _ ▸ h).1 (by simp)
          · split at h
            · exact (Prod.mk.injEq _ _ _ _ ▸ h).2.symm ▸ List.suffix_refl _
            · exact (Prod.mk.injEq _ _ _ _ ▸ h).2.symm ▸ List.suffix_refl _
    · intro ns stack x st' h
      cases ns with
      | nil =>
        simp only [walkInner] at h
        exact (Prod.mk.injEq _ _ _ _ ▸ h).2.symm ▸ rfl
      | cons n rest =>
        simp only [walkInner] at h
        exact absurd (Prod.mk.injEq _ _ _ _ ▸ h).1 (by simp)
    · intro ns stack e st' h
      cases ns with
      | nil =>
        simp only [walkInner] at h
        exact absurd (Prod.mk.injEq _ _ _ _ ▸ h).1 (by simp)
      | cons n rest =>
        simp only [walkInner] at h
        exact (Prod.mk.injEq _ _ _ _ ▸ h).2.symm ▸ List.suffix_refl _
  | succ f ih =>
    obtain ⟨⟨ihRok, ihRerr⟩, ihWok, ihWerr⟩ := ih
    have resOk : ∀ n stack x st',
        resolveCore reg parseF (f + 1) n stack = (.ok x, st') → st' = stack := by
      intro n stack x st' h
      simp only [resolveCore] at h
      split at h
      · exact ((Prod.mk.injEq _ _ _ _ ▸ h).2).symm ▸ rfl
      · split at h
        · exact ((Prod.mk.injEq _ _ _ _ ▸ h).2).symm ▸ rfl
        · split at h
          · exact ((Prod.mk.injEq _ _ _ _ ▸ h).2).symm ▸ rfl
          · split at h
            · exact absurd (Prod.mk.injEq _ _ _ _ ▸ h).1 (by simp)
            · split at h
              · exact absurd (Prod.mk.injEq _ _ _ _ ▸ h).1 (by simp)
              · next heqWalk =>
                have hst := ihWok _ _ _ _ heqWalk
                split at h
                · exact absurd (Prod.mk.injEq _ _ _ _ ▸ h).1 (by simp)
                · have h2 := (Prod.mk.injEq _ _ _ _ ▸ h).2
                  rw [← h2, hst, List.erase_cons_head]
    have resErr : ∀ n stack e st',
        resolveCore reg parseF (f + 1) n stack = (.error e, st') → stack <:+ st' := by
      intro n stack e st' h
      simp only [resolveCore] at h
      split at h
      · exact absurd (Prod.mk.injEq _ _ _ _ ▸ h).1 (by simp)
      · split at h
        · exact absurd (Prod.mk.injEq _ _ _ _ ▸ h).1 (by simp)
        · split at h
          · exact absurd (Prod.mk.injEq _ _ _ _ ▸ h).1 (by simp)
          · split at h
            · exact (Prod.mk.injEq _ _ _ _ ▸ h).2.symm ▸ List.suffix_refl _
            · split at h
              · next heqWalk =>
                have hsuf := ihWerr _ _ _ _ heqWalk
                have h2 := (Prod.mk.injEq _ _ _ _ ▸ h).2
                rw [← h2]
                exact List.IsSuffix.trans (List.suffix_cons _ _) hsuf
              · next heqWalk =>
                have hst := ihWok _ _ _ _ heqWalk
                split at h
                · have h2 := (Prod.mk.injEq _ _ _ _ ▸ h).2
                  rw [← h2, hst, List.erase_cons_head]
                · exact absurd (Prod.mk.injEq _ _ _ _ ▸ h).1 (by simp)
    refine ⟨⟨resOk, resErr⟩, ?_, ?_⟩
    · intro ns stack x st' h
      cases ns with
      | nil =>
        simp only [walkInner] at h
        exact (Prod.mk.injEq _ _ _ _ ▸ h).2.symm ▸ rfl
      | cons n rest =>
        simp only [walkInner] at h
        split at h
        · exact absurd (Prod.mk.injEq _ _ _ _ ▸ h).1 (by simp)
        · next heqRes =>
          have hst1 := ihRok _ _ _ _ heqRes
          split at h
          · exact absurd (Prod.mk.injEq _ _ _ _ ▸ h).1 (by simp)
          · next heqCh =>
            have hst2 := ihWok _ _ _ _ heqCh
            split at h
            · exact absurd (Prod.mk.injEq _ _ _ _ ▸ h).1 (by simp)
            · next heqRest =>
              have hst3 := ihWok _ _ _ _ heqRest
              split at h
              · have h2 := (Prod.mk.injEq _ _ _ _ ▸ h).2
                rw [← h2, hst3, hst2, hst1]
              · have h2 := (Prod.mk.injEq _ _ _ _ ▸ h).2
                rw [← h2, hst3, hst2, hst1]
    · intro ns stack e st' h
      cases ns with
      | nil =>
        simp only [walkInner] at h
        exact absurd (Prod.mk.injEq _ _ _ _ ▸ h).1 (by simp)
      | cons n rest =>
        simp only [walkInner] at h
        split at h
        · next heqRes =>
          have hsuf := ihRerr _ _ _ _ heqRes
          exact (Prod.mk.injEq _ _ _ _ ▸ h).2.symm ▸ hsuf
        · next heqRes =>
          have hst1 := ihRok _ _ _ _ heqRes
          split at h
          · next heqCh =>
            have hsuf := ihWerr _ _ _ _ heqCh
            rw [hst1] at hsuf
            exact (Prod.mk.injEq _ _ _ _ ▸ h).2.symm ▸ hsuf
          · next heqCh =>
            have hst2 := ihWok _ _ _ _ heqCh
            split at h
            · next heqRest =>
              have hsuf := ihWerr _ _ _ _ heqRest
              rw [hst2, hst1] at hsuf
              exact (Prod.mk.injEq _ _ _ _ ▸ h).2.symm ▸ hsuf
            · next heqRest =>
              split at h
              · exact absurd (Prod.mk.injEq _ _ _ _ ▸ h).1 (by simp)
              · exact absurd (Prod.mk.injEq _ _ _ _ ▸ h).1 (by simp)

/-! ### Claim C6 (corrected): parse failures propagate unwrapped -/

/-- A node named `err`, whose snippet body does not parse. -/
def wErrNode : Node := .mk ⟨9, some "err", [], [], none, false, none⟩ []

/-- Counterexample to C6 as stated: resolving a concrete node whose
snippet body `badbody` fails to parse with message `boom` propagates
exactly the parser's error; the propagated message does not name the
offending snippet's value (no occurrence of `badbody` in it), so the error
is not the claimed descriptive wrapper. -/
theorem claim6_counterexample :
    resolveCore wReg wParse 5 wErrNode [] = (.error (.parse "boom"), []) ∧
    ¬ ("badbody".toList <:+: "boom".toList) :=
  ⟨rfl, by decide⟩

/-- **C6 (amended).** When parsing a snippet's template string fails, the
underlying parser's error propagates to the caller unchanged — it is not
wrapped with the offending snippet's value — and the tree is left with no
partially-spliced fragment: the error propagates before any splice of that
node begins (no splice result is produced, and the cycle-guard stack is
still exactly as it was, since the failure precedes the push). -/
theorem parse_error_propagates_unwrapped (reg : Registry)
    (parseF : String → Except String Node) (fuel : Nat) (n : Node) (stack : List Nat)
    (sn : Snippet) (s m : String)
    (h1 : reg.resolve n.name = some sn) (h2 : sn.id ∉ stack)
    (h3 : sn.value = .template s) (h4 : parseF s = .error m) :
    resolveCore reg parseF fuel n stack = (.error (.parse m), stack) := by
  simp only [resolveCore]
  rw [h1]
  simp [h2, h3, h4]

/-- Witness for the amended C6. -/
theorem claim6_witness :
    resolveCore wReg wParse 9 wErrNode [] = (.error (.parse "boom"), []) :=
  parse_error_propagates_unwrapped wReg wParse 9 wErrNode [] ⟨2, .template "badbody"⟩
    "badbody" "boom" rfl (by decide) rfl rfl

/-! ### Claim C5 (corrected): the cycle-guard stack is not restored when
recursive resolution throws -/

/-- A node named `outer`, whose snippet body contains an `err` node. -/
def wOuterNode : Node := .mk ⟨6, some "outer", [], [], none, false, none⟩ []

/-- Counterexample to C5 as stated: resolving a concrete node whose
snippet body contains a node whose own snippet body fails to parse
propagates the error with the outer snippet's identity 5 still on the
cycle-guard stack — the pop is skipped because there is no try/finally. -/
theorem claim5_counterexample :
    resolveCore wReg wParse 5 wOuterNode [] = (.error (.parse "boom"), [5]) := rfl

/-- **C5 (amended).** If recursive resolution of a parsed snippet sub-tree
throws, the snippet's identity is *not* removed from the cycle-guard stack
before the exception propagates: the stack returned with the error still
contains it.  No sibling resolution ever observes the corrupted stack,
because the stack is local to one `resolveNode` call (created fresh per
top-level resolution, as `resolveNode`'s definition shows) and the
exception aborts that whole call. -/
theorem stack_retains_snippet_on_error (reg : Registry)
    (parseF : String → Except String Node) (fuel : Nat) (n : Node) (stack : List Nat)
    (sn : Snippet) (s : String) (tree : Node) (e : RErr) (st' : List Nat)
    (h1 : reg.resolve n.name = some sn) (h2 : sn.id ∉ stack)
    (h3 : sn.value = .template s) (h4 : parseF s = .ok tree)
    (h5 : walkInner reg parseF fuel tree.children (sn.id :: stack) = (.error e, st')) :
    resolveCore reg parseF (fuel + 1) n stack = (.error e, st') ∧ sn.id ∈ st' := by
  have hmem : sn.id ∈ st' := by
    have hsuf := ((stack_discipline reg parseF fuel).2.2) tree.children (sn.id :: stack) e st' h5
    exact hsuf.subset (List.mem_cons_self _ _)
  refine ⟨?_, hmem⟩
  simp only [resolveCore]
  rw [h1]
  simp [h2, h3, h4, h5]

/-- Witness for the amended C5. -/
theorem claim5_witness :
    resolveCore wReg wParse 5 wOuterNode [] = (.error (.parse "boom"), [5]) ∧
    5 ∈ ([5] : List Nat) :=
  stack_retains_snippet_on_error wReg wParse 4 wOuterNode [] ⟨5, .template "outerbody"⟩
    "outerbody" (.mk ⟨130, none, [], [], none, false, none⟩ [wOuterBody])
    (.parse "boom") [5] rfl (by decide) rfl rfl rfl

/-! ### Claim C4: attribute merge order and priority -/

@[simp] theorem Attr.clone_eq (a : Attr) : a.clone = a := rfl

/-- Spec-side description of what happens to one of `from`'s attributes:
if `to` carries an attribute of the same name, `to`'s value wins and the
implied flag is cleared; otherwise the attribute is kept as is. -/
def overriddenBy (ts : List Attr) (a : Attr) : Attr :=
  match ts.find? (fun b => b.name == a.name) with
  | some b => { a with value := b.value, implied := false }
  | none => a

theorem overriddenBy_name (ts : List Attr) (a : Attr) :
    (overriddenBy ts a).name = a.name := by
  unfold overriddenBy
  cases ts.find? (fun b => b.name == a.name) <;> rfl

theorem overriddenBy_nil (a : Attr) : overriddenBy [] a = a := rfl

/-- Filling the JavaScript map with `from`'s attribute clones, in order:
when nothing in the map clashes and the names are unique, the map is the
start segment followed by the attributes. -/
theorem foldl_mapSet_eq_append :
    ∀ (l m : List Attr), (∀ x ∈ l, ∀ b ∈ m, b.name ≠ x.name) →
      (l.map Attr.name).Nodup →
      l.foldl (fun m a => mapSet m a.clone) m = m ++ l := by
  intro l
  induction l with
  | nil => intro m _ _; simp
  | cons a l ih =>
    intro m hfresh hnodup
    have hstep : mapSet m a.clone = m ++ [a] := by
      unfold mapSet
      simp only [Attr.clone_eq]
      rw [if_neg]
      simp only [List.any_eq_true, beq_iff_eq, not_exists, not_and]
      exact fun b hb => hfresh a (List.mem_cons_self _ _) b hb
    have hfresh' : ∀ x ∈ l, ∀ b ∈ m ++ [a], b.name ≠ x.name := by
      intro x hx b hb
      rcases List.mem_append.1 hb with hb | hb
      · exact hfresh x (List.mem_cons_of_mem _ hx) b hb
      · have hba : b = a := List.mem_singleton.1 hb
        subst hba
        have : x.name ∈ l.map Attr.name := List.mem_map_of_mem _ hx
        have hnotin : b.name ∉ l.map Attr.name := (List.nodup_cons.1 hnodup).1
        exact fun hEq => hnotin (hEq ▸ this)
    have hnodup' : (l.map Attr.name).Nodup := (List.nodup_cons.1 hnodup).2
    calc (a :: l).foldl (fun m a => mapSet m a.clone) m
        = l.foldl (fun m a => mapSet m a.clone) (mapSet m a.clone) := rfl
      _ = l.foldl (fun m a => mapSet m a.clone) (m ++ [a]) := by rw [hstep]
      _ = (m ++ [a]) ++ l := ih (m ++ [a]) hfresh' hnodup'
      _ = m ++ (a :: l) := by simp

/-- One pass of the second loop of `mergeAttributes`: processing the rest
`ts` of `to`'s attributes turns the map built for the already-processed
prefix `seen` into the map for `seen ++ ts`. -/
theorem attrStep_foldl_spec (fs : List Attr) :
    ∀ (ts seen : List Attr), ((seen ++ ts).map Attr.name).Nodup →
      ts.foldl (fun m a =>
          if m.any (fun b => b.name == a.name) then
            m.map (fun b =>
              if b.name == a.name then { b with value := a.value, implied := false } else b)
          else m ++ [a])
        (fs.map (overriddenBy seen) ++
          seen.filter (fun b => !(fs.any (fun a2 => a2.name == b.name)))) =
      fs.map (overriddenBy (seen ++ ts)) ++
        (seen ++ ts).filter (fun b => !(fs.any (fun a2 => a2.name == b.name))) := by
  intro ts
  induction ts with
  | nil => intro seen _; simp
  | cons a ts ih =>
    intro seen hnodup
    have hanotseen : a.name ∉ seen.map Attr.name := by
      rw [List.map_append] at hnodup
      have hdisj := (List.nodup_append.1 hnodup).2.2
      intro hmem
      exact hdisj hmem (by simp)
    have hassoc : seen ++ a :: ts = (seen ++ [a]) ++ ts := by simp
    have hnodup' : (((seen ++ [a]) ++ ts).map Attr.name).Nodup := by
      rw [← hassoc]; exact hnodup
    by_cases hmem : a.name ∈ fs.map Attr.name
    · -- `a` overrides a template attribute: the map entry is updated in place
      obtain ⟨x, hx, hxname⟩ := List.mem_map.1 hmem
      have hany : ((fs.map (overriddenBy seen) ++
          seen.filter (fun b => !(fs.any (fun a2 => a2.name == b.name)))).any
            (fun b => b.name == a.name)) = true := by
        refine List.any_eq_true.2 ⟨overriddenBy seen x, ?_, ?_⟩
        · exact List.mem_append_left _ (List.mem_map_of_mem _ hx)
        · rw [overriddenBy_name]; exact beq_iff_eq.2 hxname
      have hstep : (fs.map (overriddenBy seen) ++
            seen.filter (fun b => !(fs.any (fun a2 => a2.name == b.name)))).map
              (fun b =>
                if b.name == a.name then { b with value := a.value, implied := false } else b) =
          fs.map (overriddenBy (seen ++ [a])) ++
            (seen ++ [a]).filter (fun b => !(fs.any (fun a2 => a2.name == b.name))) := by
        rw [List.map_append, List.map_map]
        congr 1
        · refine List.map_congr_left fun y hy => ?_
          show (if (overriddenBy seen y).name == a.name then _ else _) = _
          by_cases hyname : y.name = a.name
          · have hfindseen : seen.find? (fun b => b.name == y.name) = none := by
              refine List.find?_eq_none.2 fun c hc => ?_
              simp only [beq_iff_eq]
              intro hEq
              exact hanotseen (hyname ▸ hEq ▸ List.mem_map_of_mem _ hc)
            have h1 : overriddenBy seen y = y := by
              unfold overriddenBy; rw [hfindseen]
            have h2 : overriddenBy (seen ++ [a]) y =
                { y with value := a.value, implied := false } := by
              unfold overriddenBy
              rw [List.find?_append, hfindseen, Option.none_or]
              have : List.find? (fun b => b.name == y.name) [a] = some a := by
                simp [List.find?, hyname.symm]
              rw [this]
            rw [h1, h2, if_pos (beq_iff_eq.2 hyname)]
          · have h2 : overriddenBy (seen ++ [a]) y = overriddenBy seen y := by
              unfold overriddenBy
              rw [List.find?_append]
              have : List.find? (fun b => b.name == y.name) [a] = none := by
                simp only [List.find?]
                rw [beq_eq_false_iff_ne.2 (fun hEq => hyname hEq.symm)]
              rw [this, Option.or_none]
            rw [h2, if_neg]
            rw [overriddenBy_name]
            exact fun hEq => hyname (beq_iff_eq.1 hEq)
        · rw [List.filter_append]
          have hfa : List.filter (fun b => !(fs.any (fun a2 => a2.name == b.name))) [a] = [] := by
            simp only [List.filter]
            have : (fs.any (fun a2 => a2.name == a.name)) = true :=
              List.any_eq_true.2 ⟨x, hx, beq_iff_eq.2 hxname⟩
            rw [this]
            rfl
          rw [hfa, List.append_nil]
          refine (List.map_congr_left fun y hy => ?_).symm.trans (List.map_id' _)
          have hy' := List.mem_filter.1 hy
          have hyfs : (fs.any (fun a2 => a2.name == y.name)) = false := by
            have := hy'.2
            simpa using this
          have hyne : ¬ (y.name == a.name) = true := by
            simp only [beq_iff_eq]
            intro hEq
            have : (fs.any (fun a2 => a2.name == y.name)) = true :=
              List.any_eq_true.2 ⟨x, hx, beq_iff_eq.2 (hxname.trans hEq.symm)⟩
            rw [this] at hyfs; exact Bool.noConfusion hyfs
          rw [if_neg hyne]
      rw [List.foldl_cons, if_pos hany, hstep, hassoc]
      exact ih (seen ++ [a]) hnodup'
    · -- `a` is a receiver-only attribute: appended to the map
      have hany : ((fs.map (overriddenBy seen) ++
          seen.filter (fun b => !(fs.any (fun a2 => a2.name == b.name)))).any
            (fun b => b.name == a.name)) = false := by
        refine List.any_eq_false.2 fun b hb => ?_
        rcases List.mem_append.1 hb with hb | hb
        · obtain ⟨y, hy, hyb⟩ := List.mem_map.1 hb
          simp only [beq_iff_eq]
          intro hEq
          rw [← hyb, overriddenBy_name] at hEq
          exact hmem (hEq ▸ List.mem_map_of_mem _ hy)
        · have hb' := (List.mem_filter.1 hb).1
          simp only [beq_iff_eq]
          intro hEq
          exact hanotseen (hEq ▸ List.mem_map_of_mem _ hb')
      have hPsame : fs.map (overriddenBy (seen ++ [a])) = fs.map (overriddenBy seen) := by
        refine List.map_congr_left fun y hy => ?_
        unfold overriddenBy
        rw [List.find?_append]
        have : List.find? (fun b => b.name == y.name) [a] = none := by
          simp only [List.find?]
          rw [beq_eq_false_iff_ne.2 (fun hEq => hmem (by rw [hEq]; exact List.mem_map_of_mem _ hy))]
        rw [this, Option.or_none]
      have hQ : (seen ++ [a]).filter (fun b => !(fs.any (fun a2 => a2.name == b.name))) =
          seen.filter (fun b => !(fs.any (fun a2 => a2.name == b.name))) ++ [a] := by
        rw [List.filter_append]
        congr 1
        simp only [List.filter]
        have : (fs.any (fun a2 => a2.name == a.name)) = false := by
          refine List.any_eq_false.2 fun b hb => ?_
          simp only [beq_iff_eq]
          intro hEq
          have hmm := List.mem_map_of_mem Attr.name hb
          rw [hEq] at hmm
          exact hmem hmm
        rw [this]
        rfl
      rw [List.foldl_cons, if_neg (by simp [hany])]
      have hacc : (fs.map (overriddenBy seen) ++
            seen.filter (fun b => !(fs.any (fun a2 => a2.name == b.name)))) ++ [a] =
          fs.map (overriddenBy (seen ++ [a])) ++
            (seen ++ [a]).filter (fun b => !(fs.any (fun a2 => a2.name == b.name))) := by
        rw [hPsame, hQ, List.append_assoc]
      rw [hacc, hassoc]
      exact ih (seen ++ [a]) hnodup'

/-- Folding `addClass` appends exactly the class names not already
present, in order. -/
theorem foldl_addClass_classList :
    ∀ (l : List String) (t : Node), l.Nodup →
      (l.foldl Node.addClass t).data.classList =
        t.data.classList ++ l.filter (fun c => c ∉ t.data.classList) := by
  intro l
  induction l with
  | nil => intro t _; simp
  | cons c l ih =>
    intro t hnodup
    by_cases hc : c ∈ t.data.classList
    · have haddc : t.addClass c = t := by
        unfold Node.addClass; rw [if_pos hc]
      rw [List.foldl_cons, haddc, ih t (List.nodup_cons.1 hnodup).2]
      congr 1
      rw [List.filter_cons, if_neg (by simp [hc])]
    · have hcl : (t.addClass c).data.classList = t.data.classList ++ [c] := by
        unfold Node.addClass; rw [if_neg hc]; simp
    
      rw [List.foldl_cons, ih (t.addClass c) (List.nodup_cons.1 hnodup).2, hcl,
        List.append_assoc]
      congr 1
      rw [List.filter_cons, if_pos (by simp [hc])]
      have hcongr : l.filter (fun x => decide (x ∉ t.data.classList ++ [c])) =
          l.filter (fun x => decide (x ∉ t.data.classList)) := by
        refine List.filter_congr fun x hx => ?_
        have hxc : x ≠ c := fun hEq => (List.nodup_cons.1 hnodup).1 (hEq ▸ hx)
        simp [List.mem_append, hxc]
      rw [hcongr]
      rfl

/-- `mergeAttributes` leaves the class list exactly as `mergeClassNames`
made it. -/
theorem mergeAttributes_classList (fromN toN : Node) :
    (mergeAttributes fromN toN).data.classList =
      (mergeClassNames fromN toN).data.classList := by
  unfold mergeAttributes
  simp

/-- **C4.** For every pair of nodes with the unique-attribute-name and
unique-class invariants, `mergeAttributes(from, to)` leaves `to` with a
duplicate-free attribute list ordered as `from`'s attributes first (in
`from`'s order, each one keeping `to`'s value with the implied flag
cleared when `to` carries the same name, as `overriddenBy` spells out),
followed by the attributes present only on `to` (in `to`'s order); and
`to`'s class list becomes the duplicate-free union of both nodes' class
names. -/
theorem mergeAttributes_priority_order (fromN toN : Node)
    (hf : (fromN.data.attributes.map Attr.name).Nodup)
    (ht : (toN.data.attributes.map Attr.name).Nodup)
    (hcf : fromN.data.classList.Nodup)
    (hct : toN.data.classList.Nodup) :
    (mergeAttributes fromN toN).data.attributes =
      fromN.data.attributes.map (overriddenBy toN.data.attributes) ++
        toN.data.attributes.filter
          (fun b => !(fromN.data.attributes.any (fun a2 => a2.name == b.name))) ∧
    ((mergeAttributes fromN toN).data.attributes.map Attr.name).Nodup ∧
    (mergeAttributes fromN toN).data.classList =
      toN.data.classList ++
        fromN.data.classList.filter (fun c => c ∉ toN.data.classList) ∧
    (mergeAttributes fromN toN).data.classList.Nodup := by
  obtain ⟨⟨_, _, hTattrs, _, _, _⟩, _⟩ := mergeClassNames_data fromN toN
  have hm1 : fromN.data.attributes.foldl (fun m a => mapSet m a.clone) [] =
      fromN.data.attributes := by
    have h := foldl_mapSet_eq_append fromN.data.attributes []
      (by intro x _ b hb; cases hb) hf
    simpa using h
  have hid : fromN.data.attributes.map (overriddenBy []) = fromN.data.attributes :=
    (List.map_congr_left fun a _ => overriddenBy_nil a).trans (List.map_id' _)
  have hmain := attrStep_foldl_spec fromN.data.attributes toN.data.attributes []
    (by simpa using ht)
  simp only [List.nil_append, List.filter_nil, List.append_nil, hid] at hmain
  have hattr : (mergeAttributes fromN toN).data.attributes =
      fromN.data.attributes.map (overriddenBy toN.data.attributes) ++
        toN.data.attributes.filter
          (fun b => !(fromN.data.attributes.any (fun a2 => a2.name == b.name))) := by
    unfold mergeAttributes
    simp only [Node.data_withData]
    rw [hTattrs, hm1, hmain]
  have hclass : (mergeAttributes fromN toN).data.classList =
      toN.data.classList ++
        fromN.data.classList.filter (fun c => c ∉ toN.data.classList) := by
    rw [mergeAttributes_classList]
    exact foldl_addClass_classList fromN.data.classList toN hcf
  refine ⟨hattr, ?_, hclass, ?_⟩
  · rw [hattr, List.map_append, List.map_map]
    have hnames : fromN.data.attributes.map
        (Attr.name ∘ overriddenBy toN.data.attributes) =
        fromN.data.attributes.map Attr.name :=
      List.map_congr_left fun a _ => overriddenBy_name _ a
    rw [hnames]
    refine List.Nodup.append hf ?_ ?_
    · exact ((List.filter_sublist _).map Attr.name).nodup ht
    · intro x hx hx'
      obtain ⟨b, hb, hbname⟩ := List.mem_map.1 hx'
      have hbpred := (List.mem_filter.1 hb).2
      have : (fromN.data.attributes.any (fun a2 => a2.name == b.name)) = false := by
        simpa using hbpred
      obtain ⟨a2, ha2, ha2name⟩ := List.mem_map.1 hx
      have : ¬ (a2.name == b.name) = true := by
        intro hEq
        rw [List.any_eq_false] at this
        exact this a2 ha2 hEq
      exact this (beq_iff_eq.2 (ha2name.trans hbname.symm))
  · rw [hclass]
    refine List.Nodup.append hct (((List.filter_sublist _)).nodup hcf) ?_
    intro x hx hx'
    have := (List.mem_filter.1 hx').2
    simp only [decide_eq_true_eq] at this
    exact this hx

/-- Concrete donor node for the C4 witness: template attributes `href`
(explicit) and `rel` (implied), class `f1`. -/
def wAttrFrom : Node :=
  .mk ⟨20, some "a", [⟨"href", some "", false⟩, ⟨"rel", some "x", true⟩], ["f1"],
    none, false, none⟩ []

/-- Concrete receiver node for the C4 witness: overrides `rel`, adds
`cls`, classes `t1` and `f1`. -/
def wAttrTo : Node :=
  .mk ⟨21, some "a", [⟨"rel", some "y", false⟩, ⟨"cls", some "z", false⟩], ["t1", "f1"],
    none, false, none⟩ []

/-- Witness for C4: donor order first with the shared `rel` keeping the
receiver's value and losing its implied flag, receiver-only `cls`
appended, and the class union without duplicates. -/
theorem claim4_witness :
    (mergeAttributes wAttrFrom wAttrTo).data.attributes =
      [⟨"href", some "", false⟩, ⟨"rel", some "y", false⟩, ⟨"cls", some "z", false⟩] ∧
    ((mergeAttributes wAttrFrom wAttrTo).data.attributes.map Attr.name).Nodup ∧
    (mergeAttributes wAttrFrom wAttrTo).data.classList = ["t1", "f1"] ∧
    (mergeAttributes wAttrFrom wAttrTo).data.classList.Nodup := by
  obtain ⟨h1, h2, h3, h4⟩ := mergeAttributes_priority_order wAttrFrom wAttrTo
    (by decide) (by decide) (by decide) (by decide)
  exact ⟨h1.trans (by rfl), h2, h3.trans (by rfl), h4⟩

/-! ### The splice as pointer rewrites equals the spec-side description -/

@[simp] theorem nodeIds_mk (d : NodeData) (cs : List Node) :
    nodeIds (.mk d cs) = d.id :: forestIds cs := rfl

@[simp] theorem forestIds_nil : forestIds [] = [] := rfl

@[simp] theorem forestIds_cons (n : Node) (ns : List Node) :
    forestIds (n :: ns) = nodeIds n ++ forestIds ns := rfl

theorem forestIds_append (l1 l2 : List Node) :
    forestIds (l1 ++ l2) = forestIds l1 ++ forestIds l2 := by
  induction l1 with
  | nil => simp
  | cons n ns ih => simp [ih]

theorem Node.id_mem_nodeIds (n : Node) : n.id ∈ nodeIds n := by
  cases n with
  | mk d cs => simp

mutual
theorem removeByIdIn_noop (i : Nat) (n : Node) (h : i ∉ nodeIds n) : removeByIdIn i n = n := by
  cases n with
  | mk d cs =>
    unfold removeByIdIn
    rw [removeById_noop i cs (fun hmem => h (by simp [hmem]))]

theorem removeById_noop (i : Nat) (ns : List Node) (h : i ∉ forestIds ns) :
    removeById i ns = ns := by
  cases ns with
  | nil => rfl
  | cons n rest =>
    unfold removeById
    have hne : ¬ (n.id == i) = true := by
      simp only [beq_iff_eq]
      intro hEq
      exact h (by simp only [forestIds_cons, List.mem_append]; exact Or.inl (hEq ▸ n.id_mem_nodeIds))
    rw [if_neg hne,
      removeByIdIn_noop i n (fun hm => h (by simp [hm])),
      removeById_noop i rest (fun hm => h (by simp [hm]))]
end

mutual
theorem insertBeforeByIdIn_noop (i : Nat) (x : Node) (n : Node) (h : i ∉ nodeIds n) :
    insertBeforeByIdIn i x n = n := by
  cases n with
  | mk d cs =>
    unfold insertBeforeByIdIn
    rw [insertBeforeById_noop i x cs (fun hmem => h (by simp [hmem]))]

theorem insertBeforeById_noop (i : Nat) (x : Node) (ns : List Node) (h : i ∉ forestIds ns) :
    insertBeforeById i x ns = ns := by
  cases ns with
  | nil => rfl
  | cons n rest =>
    unfold insertBeforeById
    have hne : ¬ (n.id == i) = true := by
      simp only [beq_iff_eq]
      intro hEq
      exact h (by simp only [forestIds_cons, List.mem_append]; exact Or.inl (hEq ▸ n.id_mem_nodeIds))
    rw [if_neg hne,
      insertBeforeByIdIn_noop i x n (fun hm => h (by simp [hm])),
      insertBeforeById_noop i x rest (fun hm => h (by simp [hm]))]
end

mutual
/-- The deepest-rightmost node is the last node of the tree in pre-order;
replacing it swaps exactly the last id block for the ids of the
replacement. -/
theorem nodeIds_deepest (n : Node) :
    ∃ L, nodeIds n = L ++ [(findDeepestNode n).id] ∧
      ∀ x, nodeIds (replaceDeepestNode x n) = L ++ nodeIds x := by
  cases n with
  | mk d cs =>
    cases cs with
    | nil =>
      exact ⟨[], by simp [findDeepestNode, nodeIds, forestIds], fun x => by
        simp [replaceDeepestNode]⟩
    | cons c cs =>
      obtain ⟨L, hL, hrep⟩ := forestIds_deepest (c :: cs) (by simp)
      refine ⟨d.id :: L, ?_, fun x => ?_⟩
      · simp [findDeepestNode, hL]
      · simp [replaceDeepestNode, hrep x]

/-- Forest version of `nodeIds_deepest`, for a nonempty forest. -/
theorem forestIds_deepest (ns : List Node) (h : ns ≠ []) :
    ∃ L, forestIds ns = L ++ [(findDeepestLast ns).id] ∧
      ∀ x, forestIds (replaceDeepestList x ns) = L ++ nodeIds x := by
  cases ns with
  | nil => exact absurd rfl h
  | cons c cs =>
    cases cs with
    | nil =>
      obtain ⟨L, hL, hrep⟩ := nodeIds_deepest c
      refine ⟨L, ?_, fun x => ?_⟩
      · simp [findDeepestLast, hL]
      · simp [replaceDeepestList, hrep x]
    | cons c2 cs =>
      obtain ⟨L, hL, hrep⟩ := forestIds_deepest (c2 :: cs) (by simp)
      refine ⟨nodeIds c ++ L, ?_, fun x => ?_⟩
      · simp [findDeepestLast, hL]
      · simp [replaceDeepestList, hrep x]
end

/-- Single unfolding steps of the id-directed operations, for controlled
rewriting. -/
theorem insertBeforeById_nil (i : Nat) (x : Node) : insertBeforeById i x [] = [] := by
  rw [insertBeforeById]

theorem insertBeforeById_cons (i : Nat) (x n : Node) (rest : List Node) :
    insertBeforeById i x (n :: rest) =
      if (n.id == i) = true then x :: n :: rest
      else insertBeforeByIdIn i x n :: insertBeforeById i x rest := by
  rw [insertBeforeById]

theorem insertBeforeByIdIn_mk (i : Nat) (x : Node) (d : NodeData) (cs : List Node) :
    insertBeforeByIdIn i x (.mk d cs) = .mk d (insertBeforeById i x cs) := by
  rw [insertBeforeByIdIn]

theorem removeById_nil (i : Nat) : removeById i [] = [] := by
  rw [removeById]

theorem removeById_cons (i : Nat) (n : Node) (rest : List Node) :
    removeById i (n :: rest) =
      if (n.id == i) = true then rest
      else removeByIdIn i n :: removeById i rest := by
  rw [removeById]

theorem removeByIdIn_mk (i : Nat) (d : NodeData) (cs : List Node) :
    removeByIdIn i (.mk d cs) = .mk d (removeById i cs) := by
  rw [removeByIdIn]

mutual
/-- Inserting `x` right before the deepest-rightmost node of a tree and
then removing that node amounts to replacing it with `x`, provided all
ids are distinct and `x` brings no clashing id. -/
theorem spliceNode_spec (x : Node) (t : Node)
    (hnd : (nodeIds t).Nodup) (hdisj : ∀ i ∈ nodeIds t, i ∉ nodeIds x) :
    removeById (findDeepestNode t).id
      (insertBeforeById (findDeepestNode t).id x [t]) = [replaceDeepestNode x t] := by
  cases t with
  | mk d cs =>
    cases cs with
    | nil =>
      have hdid : d.id ∉ nodeIds x := hdisj d.id (by simp)
      have hxne : ¬ (x.id == d.id) = true := by
        simp only [beq_iff_eq]
        intro hEq
        exact hdid (hEq ▸ x.id_mem_nodeIds)
      have hfd : findDeepestNode (Node.mk d []) = Node.mk d [] := by
        simp [findDeepestNode]
      rw [hfd]
      rw [insertBeforeById_cons, if_pos (by simp)]
      rw [removeById_cons, if_neg (by simpa using hxne)]
      simp only [Node.id_mk]
      rw [removeByIdIn_noop _ _ hdid, removeById_cons, if_pos (by simp)]
      simp [replaceDeepestNode]
    | cons c cs =>
      obtain ⟨L, hL, _⟩ := forestIds_deepest (c :: cs) (by simp)
      have hndl : (d.id :: forestIds (c :: cs)).Nodup := by simpa using hnd
      have hctmem : (findDeepestLast (c :: cs)).id ∈ forestIds (c :: cs) := by simp [hL]
      have hfd : findDeepestNode (Node.mk d (c :: cs)) = findDeepestLast (c :: cs) := by
        simp [findDeepestNode]
      have hctne : ¬ (d.id == (findDeepestLast (c :: cs)).id) = true := by
        simp only [beq_iff_eq]
        intro hEq
        exact (List.nodup_cons.1 hndl).1 (hEq ▸ hctmem)
      have hdisj' : ∀ i ∈ forestIds (c :: cs), i ∉ nodeIds x := by
        intro i hi
        exact hdisj i (by simp only [nodeIds_mk, List.mem_cons]; exact Or.inr hi)
      rw [hfd]
      rw [insertBeforeById_cons, if_neg (by simpa using hctne), insertBeforeByIdIn_mk,
        insertBeforeById_nil]
      rw [removeById_cons, if_neg (by simpa using hctne), removeByIdIn_mk, removeById_nil]
      rw [spliceList_spec x (c :: cs) (by simp) (List.nodup_cons.1 hndl).2 hdisj']
      simp [replaceDeepestNode]

/-- Forest version of `spliceNode_spec`: the target is the
deepest-rightmost node of the last element. -/
theorem spliceList_spec (x : Node) (ns : List Node) (h : ns ≠ [])
    (hnd : (forestIds ns).Nodup) (hdisj : ∀ i ∈ forestIds ns, i ∉ nodeIds x) :
    removeById (findDeepestLast ns).id
      (insertBeforeById (findDeepestLast ns).id x ns) = replaceDeepestList x ns := by
  cases ns with
  | nil => exact absurd rfl h
  | cons c cs =>
    cases cs with
    | nil =>
      have hone := spliceNode_spec x c (by simpa using hnd)
        (fun i hi => hdisj i (by simpa using hi))
      simpa [findDeepestLast, replaceDeepestList] using hone
    | cons c2 cs =>
      obtain ⟨L, hL, _⟩ := forestIds_deepest (c2 :: cs) (by simp)
      have hctmem : (findDeepestLast (c2 :: cs)).id ∈ forestIds (c2 :: cs) := by simp [hL]
      have hnda : (nodeIds c ++ forestIds (c2 :: cs)).Nodup := by simpa using hnd
      have hcne : (findDeepestLast (c2 :: cs)).id ∉ nodeIds c := by
        intro hmem
        exact (List.nodup_append.1 hnda).2.2 hmem hctmem
      have hcne' : ¬ (c.id == (findDeepestLast (c2 :: cs)).id) = true := by
        simp only [beq_iff_eq]
        intro hEq
        exact hcne (hEq ▸ c.id_mem_nodeIds)
      have hfd : findDeepestLast (c :: c2 :: cs) = findDeepestLast (c2 :: cs) := by
        simp [findDeepestLast]
      have hdisj' : ∀ i ∈ forestIds (c2 :: cs), i ∉ nodeIds x := by
        intro i hi
        refine hdisj i ?_
        simp only [forestIds_cons, List.mem_append]
        right
        simpa using hi
      rw [hfd]
      rw [insertBeforeById_cons, if_neg hcne', insertBeforeByIdIn_noop _ _ _ hcne]
      rw [removeById_cons, if_neg hcne', removeByIdIn_noop _ _ hcne]
      rw [spliceList_spec x (c2 :: cs) (by simp) (List.nodup_append.1 hnda).2.1 hdisj']
      simp [replaceDeepestList]
end

/-- Detaching the merged node: the node sits at the end of the segment
produced by the while loop, and its id occurs nowhere in the moved
sub-tree, so the detach removes exactly it. -/
theorem removeById_append_self (ts : List Node) (nM : Node)
    (h : nM.id ∉ forestIds ts) :
    removeById nM.id (ts ++ [nM]) = ts := by
  induction ts with
  | nil =>
    rw [List.nil_append, removeById_cons, if_pos (by simp)]
  | cons n rest ih =>
    have hne : ¬ (n.id == nM.id) = true := by
      simp only [beq_iff_eq]
      intro hEq
      exact h (by
        simp only [forestIds_cons, List.mem_append]
        exact Or.inl (hEq ▸ n.id_mem_nodeIds))
    rw [List.cons_append, removeById_cons, if_neg hne,
      removeByIdIn_noop _ _ (fun hm => h (by simp [hm])),
      ih (fun hm => h (by simp [hm]))]

theorem findDeepestNode_withChildren (t : Node) (c : Node) (cs : List Node) :
    findDeepestNode (t.withChildren (c :: cs)) = findDeepestLast (c :: cs) := by
  cases t with
  | mk d _ => simp [Node.withChildren, findDeepestNode]

/-- The chain of pointer rewrites of src/index.js lines 52–57 — move the
expansion before the node, detach the node, insert it before the child
target, remove the child target — has the net effect of replacing the
deepest-rightmost node of the expansion with the merged node. -/
theorem applySplice_eq_replaceDeepest (ts : List Node) (nM : Node) (h : ts ≠ [])
    (hnd : (forestIds ts).Nodup) (hdisj : ∀ i ∈ forestIds ts, i ∉ nodeIds nM) :
    applySplice ts (findDeepestLast ts).id nM = replaceDeepestList nM ts := by
  unfold applySplice
  have hself : nM.id ∉ forestIds ts := fun hm => hdisj nM.id hm nM.id_mem_nodeIds
  rw [removeById_append_self ts nM hself]
  exact spliceList_spec nM ts h hnd hdisj

/-- The successful template path of `resolve`, given the outcomes of the
parse and of the recursive walk of the parsed tree. -/
theorem resolveCore_template_spliced (reg : Registry)
    (parseF : String → Except String Node) (fuel : Nat) (n : Node) (stack : List Nat)
    (sn : Snippet) (s : String) (tree : Node) (ts' : List Node)
    (h1 : reg.resolve n.name = some sn) (h2 : sn.id ∉ stack)
    (h3 : sn.value = .template s) (h4 : parseF s = .ok tree)
    (h5 : walkInner reg parseF fuel tree.children (sn.id :: stack) = (.ok ts', sn.id :: stack))
    (h6 : ts' ≠ []) :
    resolveCore reg parseF (fuel + 1) n stack =
      (.ok (.spliced ts' (findDeepestLast ts') (merge (findDeepestLast ts') n)), stack) := by
  cases ts' with
  | nil => exact absurd rfl h6
  | cons t0 trest =>
    simp only [resolveCore]
    rw [h1]
    simp only [h2, if_neg, h3, h4, h5]
    simp [List.erase_cons_head, findDeepestNode_withChildren]

/-! ### Claim C1: net effect of a template-snippet resolution -/

/-- Shared computation: one walk step over a node resolving to a template
snippet yields the resolved expansion in the node's position, with the
merged node at the expansion's deepest-rightmost spot carrying the node's
resolved children, followed by the walked remaining siblings. -/
theorem walkInner_template_step (reg : Registry) (parseF : String → Except String Node)
    (fuel : Nat) (n : Node) (rest : List Node) (stack : List Nat)
    (sn : Snippet) (s : String) (tree : Node) (ts' ch' rest' : List Node)
    (h1 : reg.resolve n.name = some sn) (h2 : sn.id ∉ stack)
    (h3 : sn.value = .template s) (h4 : parseF s = .ok tree)
    (h5 : walkInner reg parseF fuel tree.children (sn.id :: stack) = (.ok ts', sn.id :: stack))
    (h6 : ts' ≠ [])
    (h7 : walkInner reg parseF (fuel + 1) n.children stack = (.ok ch', stack))
    (h8 : walkInner reg parseF (fuel + 1) rest stack = (.ok rest', stack))
    (h9 : (forestIds ts').Nodup)
    (h10 : ∀ i ∈ forestIds ts',
      i ∉ nodeIds ((merge (findDeepestLast ts') n).withChildren ch')) :
    walkInner reg parseF (fuel + 2) (n :: rest) stack =
      (.ok (replaceDeepestList ((merge (findDeepestLast ts') n).withChildren ch') ts'
        ++ rest'), stack) := by
  have hcore := resolveCore_template_spliced reg parseF fuel n stack sn s tree ts'
    h1 h2 h3 h4 h5 h6
  show walkInner reg parseF (fuel + 1 + 1) (n :: rest) stack = _
  simp only [walkInner]
  rw [hcore]
  simp only [SpliceRes.node]
  rw [(merge_id_children (findDeepestLast ts') n).2, h7]
  dsimp only []
  rw [h8]
  dsimp only []
  rw [applySplice_eq_replaceDeepest ts'
    ((merge (findDeepestLast ts') n).withChildren ch') h6 h9 h10]

/-- **C1.** For a node `n` whose name resolves to a template snippet:
after resolution, the sub-tree parsed from the snippet (recursively
resolved, `ts'`) occupies `n`'s original position among its siblings in
document order; `n`'s original children (recursively resolved, `ch'`) end
up under the deepest-rightmost node of that sub-tree — found by following
the last child until a childless node — because the node standing at that
deepest position is exactly `n` merged, via `merge`, with the data of the
old deepest node, carrying `n`'s attributes, classes, value, repeat
descriptor and self-closing flag combined with the deepest node's. -/
theorem resolve_template_splice (reg : Registry) (parseF : String → Except String Node)
    (fuel : Nat) (n : Node) (rest : List Node) (stack : List Nat)
    (sn : Snippet) (s : String) (tree : Node) (ts' ch' rest' : List Node)
    (h1 : reg.resolve n.name = some sn) (h2 : sn.id ∉ stack)
    (h3 : sn.value = .template s) (h4 : parseF s = .ok tree)
    (h5 : walkInner reg parseF fuel tree.children (sn.id :: stack) = (.ok ts', sn.id :: stack))
    (h6 : ts' ≠ [])
    (h7 : walkInner reg parseF (fuel + 1) n.children stack = (.ok ch', stack))
    (h8 : walkInner reg parseF (fuel + 1) rest stack = (.ok rest', stack))
    (h9 : (forestIds ts').Nodup)
    (h10 : ∀ i ∈ forestIds ts',
      i ∉ nodeIds ((merge (findDeepestLast ts') n).withChildren ch')) :
    walkInner reg parseF (fuel + 2) (n :: rest) stack =
      (.ok (replaceDeepestList ((merge (findDeepestLast ts') n).withChildren ch') ts'
        ++ rest'), stack) :=
  walkInner_template_step reg parseF fuel n rest stack sn s tree ts' ch' rest'
    h1 h2 h3 h4 h5 h6 h7 h8 h9 h10

/-- Child of the C1 witness node, matching no snippet. -/
def wC1Child : Node := .mk ⟨31, some "zz", [], [], none, false, none⟩ []

/-- The C1 witness node: named `bq` (alias snippet for `blockquote`),
with class `a` and one child. -/
def wC1Node : Node := .mk ⟨30, some "bq", [], ["a"], none, false, none⟩ [wC1Child]

/-- Witness for C1: the `bq` node with a child, next to a sibling, is
replaced by the `blockquote` expansion, merged and carrying the child,
with the sibling untouched after it. -/
theorem claim1_witness :
    walkInner wReg wParse 5 [wC1Node, wPlain] [] =
      (.ok (replaceDeepestList ((merge (findDeepestLast [wBqBody]) wC1Node).withChildren
        [wC1Child]) [wBqBody] ++ [wPlain]), []) :=
  resolve_template_splice wReg wParse 3 wC1Node [wPlain] [] ⟨0, .template "blockquote"⟩
    "blockquote" (.mk ⟨100, none, [], [], none, false, none⟩ [wBqBody])
    [wBqBody] [wC1Child] [wPlain] rfl (by decide) rfl rfl rfl (by simp) rfl rfl
    (by decide) (by decide)

/-! ### Claim C9 (corrected): the resolved node survives inside the
expansion; splices keep the id structure consistent -/

/-- The C9 counterexample node: named `bq`, resolved by a template
snippet. -/
def wC9Node : Node := .mk ⟨40, some "bq", [], [], none, false, none⟩ []

/-- Counterexample to C9 as stated: after resolving a concrete node
through a *template* snippet (not a function snippet), the node still
exists in the tree — its id 40 is present in the result, because the
splice moves the original node to the deepest position of the expansion
instead of removing it. -/
theorem claim9_counterexample :
    wReg.resolve wC9Node.name = some ⟨0, .template "blockquote"⟩ ∧
    (SnippetValue.template "blockquote").isTemplate = true ∧
    walkInner wReg wParse 5 [wC9Node] [] =
      (.ok [(merge wBqBody wC9Node).withChildren []], []) ∧
    wC9Node.id ∈ forestIds [(merge wBqBody wC9Node).withChildren []] :=
  ⟨rfl, rfl, rfl, by decide⟩

/-- **C9 (amended).** After resolving a node through a template snippet
the node still exists in the tree: it stands, merged, at the
deepest-rightmost position of the spliced expansion, keeping its id and
its (resolved) children — in-place mutation without splice happens only
for function snippets, and no-op for unmatched names.  Parent/children
consistency holds after the splice: when the ids in play are distinct,
the resulting forest's ids are again distinct (no node in two positions,
no duplicated sub-tree) and the replaced child target's id is gone (no
dangling reference). -/
theorem splice_preserves_node_and_consistency (reg : Registry)
    (parseF : String → Except String Node)
    (fuel : Nat) (n : Node) (rest : List Node) (stack : List Nat)
    (sn : Snippet) (s : String) (tree : Node) (ts' ch' rest' : List Node)
    (h1 : reg.resolve n.name = some sn) (h2 : sn.id ∉ stack)
    (h3 : sn.value = .template s) (h4 : parseF s = .ok tree)
    (h5 : walkInner reg parseF fuel tree.children (sn.id :: stack) = (.ok ts', sn.id :: stack))
    (h6 : ts' ≠ [])
    (h7 : walkInner reg parseF (fuel + 1) n.children stack = (.ok ch', stack))
    (h8 : walkInner reg parseF (fuel + 1) rest stack = (.ok rest', stack))
    (h9 : (forestIds ts').Nodup)
    (h10 : ∀ i ∈ forestIds ts',
      i ∉ nodeIds ((merge (findDeepestLast ts') n).withChildren ch'))
    (h11 : (nodeIds ((merge (findDeepestLast ts') n).withChildren ch')).Nodup)
    (h12 : (forestIds rest').Nodup)
    (h13 : ∀ i ∈ forestIds rest', i ∉ forestIds ts' ∧
      i ∉ nodeIds ((merge (findDeepestLast ts') n).withChildren ch')) :
    walkInner reg parseF (fuel + 2) (n :: rest) stack =
      (.ok (replaceDeepestList ((merge (findDeepestLast ts') n).withChildren ch') ts'
        ++ rest'), stack) ∧
    n.id ∈ forestIds (replaceDeepestList ((merge (findDeepestLast ts') n).withChildren ch') ts'
        ++ rest') ∧
    (forestIds (replaceDeepestList ((merge (findDeepestLast ts') n).withChildren ch') ts'
        ++ rest')).Nodup ∧
    (findDeepestLast ts').id ∉
      forestIds (replaceDeepestList ((merge (findDeepestLast ts') n).withChildren ch') ts'
        ++ rest') := by
  obtain ⟨L, hL, hrep⟩ := forestIds_deepest ts' h6
  have hctmem : (findDeepestLast ts').id ∈ forestIds ts' := by simp [hL]
  have hndId : ((merge (findDeepestLast ts') n).withChildren ch').id = n.id := by
    show ((merge (findDeepestLast ts') n).withChildren ch').data.id = n.data.id
    rw [Node.data_withChildren]
    exact (merge_id_children (findDeepestLast ts') n).1
  have hids : forestIds (replaceDeepestList
      ((merge (findDeepestLast ts') n).withChildren ch') ts' ++ rest') =
      (L ++ nodeIds ((merge (findDeepestLast ts') n).withChildren ch')) ++ forestIds rest' := by
    rw [forestIds_append, hrep]
  have hLpart := hL ▸ h9
  have hLnodup : L.Nodup := (List.nodup_append.1 hLpart).1
  have hctnotL : (findDeepestLast ts').id ∉ L := by
    intro hmem
    exact (List.nodup_append.1 hLpart).2.2 hmem (by simp)
  refine ⟨walkInner_template_step reg parseF fuel n rest stack sn s tree ts' ch' rest'
    h1 h2 h3 h4 h5 h6 h7 h8 h9 h10, ?_, ?_, ?_⟩
  · rw [hids]
    have : n.id ∈ nodeIds ((merge (findDeepestLast ts') n).withChildren ch') := by
      rw [← hndId]
      exact Node.id_mem_nodeIds _
    simp [this]
  · rw [hids]
    refine List.Nodup.append (List.Nodup.append hLnodup h11 ?_) h12 ?_
    · intro i hiL hiN
      exact h10 i (by simp [hL, hiL]) hiN
    · intro i hi hirest
      rcases List.mem_append.1 hi with hi | hi
      · exact (h13 i hirest).1 (by simp [hL, hi])
      · exact (h13 i hirest).2 hi
  · rw [hids]
    intro hmem
    rcases List.mem_append.1 hmem with hmem | hmem
    · rcases List.mem_append.1 hmem with hmem | hmem
      · exact hctnotL hmem
      · exact h10 _ hctmem hmem
    · exact (h13 _ hmem).1 hctmem

/-- Witness for the amended C9: the concrete `bq` expansion keeps the
original node (id 30) at the deepest position, with all ids distinct and
the replaced target id 101 gone. -/
theorem claim9_witness :
    walkInner wReg wParse 5 [wC1Node, wPlain] [] =
      (.ok (replaceDeepestList ((merge (findDeepestLast [wBqBody]) wC1Node).withChildren
        [wC1Child]) [wBqBody] ++ [wPlain]), []) ∧
    wC1Node.id ∈ forestIds (replaceDeepestList
      ((merge (findDeepestLast [wBqBody]) wC1Node).withChildren [wC1Child]) [wBqBody]
        ++ [wPlain]) ∧
    (forestIds (replaceDeepestList
      ((merge (findDeepestLast [wBqBody]) wC1Node).withChildren [wC1Child]) [wBqBody]
        ++ [wPlain])).Nodup ∧
    (findDeepestLast [wBqBody]).id ∉ forestIds (replaceDeepestList
      ((merge (findDeepestLast [wBqBody]) wC1Node).withChildren [wC1Child]) [wBqBody]
        ++ [wPlain]) :=
  splice_preserves_node_and_consistency wReg wParse 3 wC1Node [wPlain] []
    ⟨0, .template "blockquote"⟩ "blockquote"
    (.mk ⟨100, none, [], [], none, false, none⟩ [wBqBody])
    [wBqBody] [wC1Child] [wPlain] rfl (by decide) rfl rfl rfl (by simp) rfl rfl
    (by decide) (by decide) (by decide) (by decide) (by decide)

/-! ### Claim C10: an unmatched registry makes resolution a no-op -/

theorem resolveCore_none (reg : Registry) (parseF : String → Except String Node)
    (fuel : Nat) (n : Node) (stack : List Nat) (h : reg.resolve n.name = none) :
    resolveCore reg parseF fuel n stack = (.ok (.keep n), stack) := by
  simp only [resolveCore]
  rw [h]

@[simp] theorem nodeUnmatched_mk (reg : Registry) (d : NodeData) (cs : List Node) :
    nodeUnmatched reg (.mk d cs) = ((reg.resolve d.name).isNone && forestUnmatched reg cs) :=
  rfl

@[simp] theorem forestUnmatched_cons (reg : Registry) (n : Node) (ns : List Node) :
    forestUnmatched reg (n :: ns) = (nodeUnmatched reg n && forestUnmatched reg ns) := rfl

@[simp] theorem nodeSize_mk (d : NodeData) (cs : List Node) :
    nodeSize (.mk d cs) = 1 + forestSize cs := rfl

@[simp] theorem forestSize_nil : forestSize [] = 0 := rfl

@[simp] theorem forestSize_cons (n : Node) (ns : List Node) :
    forestSize (n :: ns) = nodeSize n + forestSize ns := rfl

theorem nodeSize_pos (n : Node) : 0 < nodeSize n := by
  cases n with
  | mk d cs => simp

/-- The driver walk leaves a forest of unmatched nodes untouched. -/
theorem walkDriver_unmatched (reg : Registry) (parseF : String → Except String Node) :
    ∀ (fuel : Nat) (ns : List Node), forestUnmatched reg ns = true →
      forestSize ns < fuel → walkDriver reg parseF fuel ns = .ok ns := by
  intro fuel
  induction fuel with
  | zero =>
    intro ns _ hsize
    exact absurd hsize (by omega)
  | succ f ih =>
    intro ns hunm hsize
    cases ns with
    | nil => rfl
    | cons n rest =>
      cases n with
      | mk d cs =>
        simp only [forestUnmatched_cons, nodeUnmatched_mk, Bool.and_eq_true,
          Option.isNone_iff_eq_none] at hunm
        obtain ⟨⟨hres, hcs⟩, hrest⟩ := hunm
        simp only [forestSize_cons, nodeSize_mk] at hsize
        have hnone : reg.resolve (Node.mk d cs).name = none := hres
        simp only [walkDriver, resolveNode]
        rw [resolveCore_none reg parseF f _ [] hnone]
        dsimp only [SpliceRes.node]
        rw [show (Node.mk d cs).children = cs from rfl,
          ih cs hcs (by omega)]
        dsimp only []
        rw [ih rest hrest (by omega)]
        rfl

/-- **C10.** Resolving a tree against a registry in which no node's name
matches any snippet is a no-op: the same tree comes back structurally
unchanged.  And in every case — no-op or not — the returned tree is the
root that was passed in (same root data), mutated only in its children:
`resolveTree` never builds a new root. -/
theorem resolveTree_noop_unmatched (reg : Registry)
    (parseF : String → Except String Node) (fuel : Nat) (t : Node)
    (h1 : forestUnmatched reg t.children = true)
    (h2 : forestSize t.children < fuel) :
    resolveTree reg parseF fuel t = .ok t ∧
    (∀ t', resolveTree reg parseF fuel t = .ok t' → t'.data = t.data) := by
  constructor
  · unfold resolveTree
    rw [walkDriver_unmatched reg parseF fuel t.children h1 h2]
    dsimp only []
    rw [Node.withChildren_self]
  · intro t' h
    unfold resolveTree at h
    cases hE : walkDriver reg parseF fuel t.children with
    | error e => rw [hE] at h; cases h
    | ok cs =>
      rw [hE] at h
      cases h
      exact Node.data_withChildren t cs

/-- A root with three unmatched descendants for the C10 witness. -/
def wC10Tree : Node :=
  .mk ⟨50, none, [], [], none, false, none⟩
    [.mk ⟨51, some "zz", [], [], none, false, none⟩
      [.mk ⟨52, some "yy", [], [], none, false, none⟩ []],
     .mk ⟨53, some "xx", [], [], none, false, none⟩ []]

/-- Witness for C10. -/
theorem claim10_witness : resolveTree wReg wParse 4 wC10Tree = .ok wC10Tree :=
  (resolveTree_noop_unmatched wReg wParse 4 wC10Tree (by decide) (by decide)).1

/-! ### Claim C3: the cycle guard bounds the expansion depth, so
resolution terminates -/

/-- A snippet found by the registry lookup carries one of the registry's
snippet ids. -/
theorem Registry.resolve_id_mem (reg : Registry) (name : Option String) (sn : Snippet)
    (h : reg.resolve name = some sn) : sn.id ∈ regIds reg := by
  unfold Registry.resolve at h
  cases name with
  | none => cases h
  | some nm =>
    rw [Option.some_bind] at h
    obtain ⟨e, he, hesn⟩ := Option.map_eq_some'.1 h
    have hmem := List.mem_of_find?_eq_some he
    refine List.mem_dedup.2 ?_
    rw [← hesn]
    exact List.mem_map_of_mem _ hmem

/-- In a template-only registry, every lookup yields a template snippet. -/
theorem Registry.resolve_isTemplate (reg : Registry) (name : Option String) (sn : Snippet)
    (htem : reg.templatesOnly = true) (h : reg.resolve name = some sn) :
    sn.value.isTemplate = true := by
  unfold Registry.resolve at h
  cases name with
  | none => cases h
  | some nm =>
    rw [Option.some_bind] at h
    obtain ⟨e, he, hesn⟩ := Option.map_eq_some'.1 h
    have hmem := List.mem_of_find?_eq_some he
    have := List.all_eq_true.1 htem e hmem
    rw [← hesn]
    exact this

/-- Filtering with a weaker predicate keeps at least as many elements. -/
theorem length_filter_mono {α : Type} (l : List α) (p q : α → Bool)
    (himp : ∀ x, q x = true → p x = true) :
    (l.filter q).length ≤ (l.filter p).length := by
  induction l with
  | nil => simp
  | cons a l ih =>
    by_cases hq : q a = true
    · rw [List.filter_cons, if_pos hq, List.filter_cons, if_pos (himp a hq)]
      simpa using ih
    · rw [List.filter_cons, if_neg hq]
      rw [List.filter_cons]
      by_cases hp : p a = true
      · rw [if_pos hp]
        exact le_trans ih (by simp)
      · rw [if_neg hp]
        exact ih

/-- Filtering with a strictly stronger predicate — one that rejects an
element the weaker one keeps — keeps strictly fewer elements. -/
theorem length_filter_lt {α : Type} (l : List α) (p q : α → Bool)
    (himp : ∀ x, q x = true → p x = true) (x : α) (hx : x ∈ l)
    (hpx : p x = true) (hqx : q x = false) :
    (l.filter q).length < (l.filter p).length := by
  induction l with
  | nil => cases hx
  | cons a l ih =>
    rcases List.mem_cons.1 hx with hxa | hxl
    · subst hxa
      rw [List.filter_cons, if_neg (by rw [hqx]; exact Bool.noConfusion),
        List.filter_cons, if_pos hpx]
      exact Nat.lt_succ_of_le (length_filter_mono l p q himp)
    · by_cases hq : q a = true
      · rw [List.filter_cons, if_pos hq, List.filter_cons, if_pos (himp a hq)]
        simpa using ih hxl
      · rw [List.filter_cons, if_neg hq, List.filter_cons]
        by_cases hp : p a = true
        · rw [if_pos hp]
          exact lt_of_lt_of_le (ih hxl) (by simp)
        · rw [if_neg hp]
          exact ih hxl

/-- Pushing a free registry snippet id onto the stack strictly decreases
the number of free ids: the measure behind the cycle guard. -/
theorem freeCount_cons_lt (reg : Registry) (stack : List Nat) (i : Nat)
    (hmem : i ∈ regIds reg) (hnot : i ∉ stack) :
    freeCount reg (i :: stack) < freeCount reg stack := by
  unfold freeCount
  refine length_filter_lt (regIds reg) (fun x => decide (x ∉ stack))
    (fun x => decide (x ∉ i :: stack)) ?_ i hmem ?_ ?_
  · intro x hx
    simp only [decide_eq_true_eq] at hx ⊢
    exact fun hm => hx (List.mem_cons_of_mem _ hm)
  · simpa using hnot
  · simp

/-- The guard branch of `resolve`: a snippet already on the stack leaves
everything untouched. -/
theorem resolveCore_guard (reg : Registry) (parseF : String → Except String Node)
    (fuel : Nat) (n : Node) (stack : List Nat) (sn : Snippet)
    (h1 : reg.resolve n.name = some sn) (h2 : sn.id ∈ stack) :
    resolveCore reg parseF fuel n stack = (.ok (.keep n), stack) := by
  simp only [resolveCore]
  rw [h1]
  simp [h2]

/-- With a template-only registry, a successful resolve step never changes
the node's children: the kept or merged node keeps the original node's
children list. -/
theorem resolveCore_ok_children (reg : Registry) (parseF : String → Except String Node)
    (fuel : Nat) (n : Node) (stack : List Nat) (res : SpliceRes) (st' : List Nat)
    (htem : reg.templatesOnly = true)
    (h : resolveCore reg parseF fuel n stack = (.ok res, st')) :
    res.node.children = n.children := by
  cases hlook : reg.resolve n.name with
  | none =>
    rw [resolveCore_none reg parseF fuel n stack hlook] at h
    injection h with h1 h2
    injection h1 with h1
    subst h1
    rfl
  | some sn =>
    by_cases hst : sn.id ∈ stack
    · rw [resolveCore_guard reg parseF fuel n stack sn hlook hst] at h
      injection h with h1 h2
      injection h1 with h1
      subst h1
      rfl
    · cases hval : sn.value with
      | fn f =>
        have hT := Registry.resolve_isTemplate reg n.name sn htem hlook
        rw [hval] at hT
        cases hT
      | template s =>
        cases hp : parseF s with
        | error m =>
          have heq : resolveCore reg parseF fuel n stack = (.error (.parse m), stack) := by
            simp only [resolveCore]
            rw [hlook]
            simp [hst, hval, hp]
          rw [heq] at h
          simp at h
        | ok tree =>
          cases fuel with
          | zero =>
            have heq : resolveCore reg parseF 0 n stack = (.error .outOfFuel, stack) := by
              simp only [resolveCore]
              rw [hlook]
              simp [hst, hval, hp]
            rw [heq] at h
            simp at h
          | succ f' =>
            rcases hE : walkInner reg parseF f' tree.children (sn.id :: stack) with ⟨r, st⟩
            cases r with
            | error e =>
              have heq : resolveCore reg parseF (f' + 1) n stack = (.error e, st) := by
                simp only [resolveCore]
                rw [hlook]
                simp [hst, hval, hp, hE]
              rw [heq] at h
              simp at h
            | ok ts' =>
              cases ts' with
              | nil =>
                have heq : resolveCore reg parseF (f' + 1) n stack =
                    (.error .nullParent, st.erase sn.id) := by
                  simp only [resolveCore]
                  rw [hlook]
                  simp [hst, hval, hp, hE]
                rw [heq] at h
                simp at h
              | cons t0 trest =>
                have heq : resolveCore reg parseF (f' + 1) n stack =
                    (.ok (.spliced (t0 :: trest)
                      (findDeepestNode (tree.withChildren (t0 :: trest)))
                      (merge (findDeepestNode (tree.withChildren (t0 :: trest))) n)),
                      st.erase sn.id) := by
                  simp only [resolveCore]
                  rw [hlook]
                  simp [hst, hval, hp, hE]
                rw [heq] at h
                injection h with h1 h2
                injection h1 with h1
                subst h1
                exact (merge_id_children _ n).2

/-- Fuel sufficiency over a template-only registry: enough fuel makes the
out-of-fuel artifact unreachable — the embedding's rendering of
termination.  The outer induction is on the number of registry snippet
ids not yet on the cycle-guard stack (the guard admits each snippet at
most once per chain), the inner induction on the forest size. -/
theorem exists_fuel_no_outOfFuel (reg : Registry) (parseF : String → Except String Node)
    (htem : reg.templatesOnly = true) :
    ∀ k : Nat,
      (∀ (n : Node) (stack : List Nat), freeCount reg stack ≤ k →
        ∃ f0, ∀ f, f0 ≤ f → (resolveCore reg parseF f n stack).1 ≠ .error .outOfFuel) ∧
      (∀ (ns : List Node) (stack : List Nat), freeCount reg stack ≤ k →
        ∃ f0, ∀ f, f0 ≤ f → (walkInner reg parseF f ns stack).1 ≠ .error .outOfFuel) := by
  intro k
  induction k using Nat.strong_induction_on with
  | _ k ih =>
    have hres : ∀ (n : Node) (stack : List Nat), freeCount reg stack ≤ k →
        ∃ f0, ∀ f, f0 ≤ f → (resolveCore reg parseF f n stack).1 ≠ .error .outOfFuel := by
      intro n stack hk
      cases hlook : reg.resolve n.name with
      | none =>
        refine ⟨0, fun f _ => ?_⟩
        rw [resolveCore_none reg parseF f n stack hlook]
        simp
      | some sn =>
        by_cases hst : sn.id ∈ stack
        · refine ⟨0, fun f _ => ?_⟩
          rw [resolveCore_guard reg parseF f n stack sn hlook hst]
          simp
        · cases hval : sn.value with
          | fn g =>
            refine ⟨0, fun f _ => ?_⟩
            have heq : resolveCore reg parseF f n stack = (.ok (.keep (g n)), stack) := by
              simp only [resolveCore]
              rw [hlook]
              simp [hst, hval]
            rw [heq]
            simp
          | template s =>
            cases hp : parseF s with
            | error m =>
              refine ⟨0, fun f _ => ?_⟩
              have heq : resolveCore reg parseF f n stack = (.error (.parse m), stack) := by
                simp only [resolveCore]
                rw [hlook]
                simp [hst, hval, hp]
              rw [heq]
              simp
            | ok tree =>
              have hmemreg := Registry.resolve_id_mem reg n.name sn hlook
              have hlt : freeCount reg (sn.id :: stack) < freeCount reg stack :=
                freeCount_cons_lt reg stack sn.id hmemreg hst
              have hk' : freeCount reg (sn.id :: stack) < k := by omega
              obtain ⟨f0w, hf0w⟩ := (ih _ hk').2 tree.children (sn.id :: stack) (Nat.le_refl _)
              refine ⟨f0w + 1, fun f hf => ?_⟩
              obtain ⟨f', rfl⟩ : ∃ f', f = f' + 1 := ⟨f - 1, by omega⟩
              have hinner := hf0w f' (by omega)
              rcases hE : walkInner reg parseF f' tree.children (sn.id :: stack) with ⟨r, st⟩
              rw [hE] at hinner
              cases r with
              | error e =>
                have heq : resolveCore reg parseF (f' + 1) n stack = (.error e, st) := by
                  simp only [resolveCore]
                  rw [hlook]
                  simp [hst, hval, hp, hE]
                rw [heq]
                have he : e ≠ RErr.outOfFuel := fun hEq => hinner (by rw [hEq])
                simpa using he
              | ok ts' =>
                cases ts' with
                | nil =>
                  have heq : resolveCore reg parseF (f' + 1) n stack =
                      (.error .nullParent, st.erase sn.id) := by
                    simp only [resolveCore]
                    rw [hlook]
                    simp [hst, hval, hp, hE]
                  rw [heq]
                  simp
                | cons t0 trest =>
                  have heq : resolveCore reg parseF (f' + 1) n stack =
                      (.ok (.spliced (t0 :: trest)
                        (findDeepestNode (tree.withChildren (t0 :: trest)))
                        (merge (findDeepestNode (tree.withChildren (t0 :: trest))) n)),
                        st.erase sn.id) := by
                    simp only [resolveCore]
                    rw [hlook]
                    simp [hst, hval, hp, hE]
                  rw [heq]
                  simp
    refine ⟨hres, ?_⟩
    have hwalk : ∀ (sz : Nat) (ns : List Node) (stack : List Nat), forestSize ns ≤ sz →
        freeCount reg stack ≤ k →
        ∃ f0, ∀ f, f0 ≤ f → (walkInner reg parseF f ns stack).1 ≠ .error .outOfFuel := by
      intro sz
      induction sz with
      | zero =>
        intro ns stack hsz hk
        cases ns with
        | nil =>
          refine ⟨0, fun f _ => ?_⟩
          simp [walkInner]
        | cons n rest =>
          have := nodeSize_pos n
          simp only [forestSize_cons] at hsz
          omega
      | succ sz ihs =>
        intro ns stack hsz hk
        cases ns with
        | nil =>
          refine ⟨0, fun f _ => ?_⟩
          simp [walkInner]
        | cons n rest =>
          have hszn := nodeSize_pos n
          simp only [forestSize_cons] at hsz
          have hchsz : forestSize n.children ≤ sz := by
            cases n with
            | mk d cs =>
              simp only [nodeSize_mk] at hsz
              simp only [Node.children_mk]
              omega
          have hrestsz : forestSize rest ≤ sz := by omega
          obtain ⟨f1, hf1⟩ := hres n stack hk
          obtain ⟨f2, hf2⟩ := ihs n.children stack hchsz hk
          obtain ⟨f3, hf3⟩ := ihs rest stack hrestsz hk
          refine ⟨f1 + f2 + f3 + 1, fun f hf => ?_⟩
          obtain ⟨f', rfl⟩ : ∃ f', f = f' + 1 := ⟨f - 1, by omega⟩
          have hne1 := hf1 f' (by omega)
          rcases hE1 : resolveCore reg parseF f' n stack with ⟨r1, st1⟩
          rw [hE1] at hne1
          simp only [walkInner]
          rw [hE1]
          cases r1 with
          | error e =>
            have he : e ≠ RErr.outOfFuel := fun hEq => hne1 (by rw [hEq])
            simpa using he
          | ok res =>
            have hst1 : st1 = stack :=
              (stack_discipline reg parseF f').1.1 n stack res st1 hE1
            subst st1
            have hch := resolveCore_ok_children reg parseF f' n stack res stack htem hE1
            have hne2 := hf2 f' (by omega)
            rcases hE2 : walkInner reg parseF f' res.node.children stack with ⟨r2, st2⟩
            rw [hch] at hE2
            rw [hE2] at hne2
            dsimp only []
            rw [hch, hE2]
            cases r2 with
            | error e =>
              have he : e ≠ RErr.outOfFuel := fun hEq => hne2 (by rw [hEq])
              simpa using he
            | ok ch' =>
              have hst2 : st2 = stack :=
                (stack_discipline reg parseF f').2.1 _ _ _ _ hE2
              subst st2
              have hne3 := hf3 f' (by omega)
              rcases hE3 : walkInner reg parseF f' rest stack with ⟨r3, st3⟩
              rw [hE3] at hne3
              dsimp only []
              rw [hE3]
              cases r3 with
              | error e =>
                have he : e ≠ RErr.outOfFuel := fun hEq => hne3 (by rw [hEq])
                simpa using he
              | ok rest' =>
                cases res with
                | keep nn => simp
                | spliced ts ct nn => simp
    exact fun ns stack hk => hwalk (forestSize ns) ns stack (Nat.le_refl _) hk

/-- A node named `img`, whose snippet body contains an `img` node again
(the self-referential shape snippet `img -> img[src alt]/`). -/
def wImgNode : Node := .mk ⟨45, some "img", [], [], none, false, none⟩ []

/-- The witness registry restricted to its template snippets. -/
def wTReg : Registry :=
  ⟨[("bq", ⟨0, .template "blockquote"⟩),
    ("img", ⟨1, .template "imgbody"⟩),
    ("err", ⟨2, .template "badbody"⟩),
    ("a", ⟨4, .template "abody"⟩),
    ("outer", ⟨5, .template "outerbody"⟩)]⟩

/-- **C3.** Resolution of any node terminates: over a registry of template
snippets, some fuel bound rules out the embedding's out-of-fuel artifact,
because a snippet identity already on the current resolution chain is
never expanded a second time on that chain (the guard returns the node
unchanged, second conjunct).  Concretely, an `img` node whose snippet body
contains an `img` node again expands exactly once: the expansion is the
parsed body with its inner `img` occurrence left unexpanded, merged with
the original node (third conjunct). -/
theorem resolve_terminates_cycle_guard :
    (∀ (reg : Registry) (parseF : String → Except String Node),
        reg.templatesOnly = true →
        ∀ (n : Node) (stack : List Nat),
          ∃ f0, ∀ f, f0 ≤ f →
            (resolveCore reg parseF f n stack).1 ≠ .error .outOfFuel) ∧
    (∀ (reg : Registry) (parseF : String → Except String Node) (fuel : Nat)
        (n : Node) (stack : List Nat) (sn : Snippet),
        reg.resolve n.name = some sn → sn.id ∈ stack →
        resolveCore reg parseF fuel n stack = (.ok (.keep n), stack)) ∧
    resolveCore wReg wParse 3 wImgNode [] =
      (.ok (.spliced [wImgBody] wImgBody (merge wImgBody wImgNode)), []) := by
  refine ⟨?_, ?_, ?_⟩
  · intro reg parseF htem n stack
    exact (exists_fuel_no_outOfFuel reg parseF htem (freeCount reg stack)).1 n stack
      (Nat.le_refl _)
  · intro reg parseF fuel n stack sn h1 h2
    exact resolveCore_guard reg parseF fuel n stack sn h1 h2
  · rfl

/-- Witness for C3: termination over the template-only witness registry,
and the guard stopping a concrete on-chain snippet. -/
theorem claim3_witness :
    (∃ f0, ∀ f, f0 ≤ f →
      (resolveCore wTReg wParse f wImgNode []).1 ≠ .error .outOfFuel) ∧
    resolveCore wTReg wParse 7 wImgNode [1] = (.ok (.keep wImgNode), [1]) :=
  ⟨resolve_terminates_cycle_guard.1 wTReg wParse (by decide) wImgNode [],
   resolve_terminates_cycle_guard.2.1 wTReg wParse 7 wImgNode [1]
     ⟨1, .template "imgbody"⟩ rfl (by decide)⟩

end SnippetResolver
